import Mathlib

/-!
Verification of the Airtable schema analysis and report synthesis engine.

This file gives a shallow embedding, in Lean 4, of the parts of the
`airtable_analyzer` package that the verified properties are about:

* `schema_processor.py` — configuration normalization, linked-table id
  extraction, relationship-kind derivation, per-table field processing,
  and the Kahn-style table creation ordering with its alphabetical
  fallback (`SchemaProcessor`);
* `report_builder.py` — the metrics computation (`_compute_metrics`,
  `_classify_complexity`), the field categorizer (`_categorize_field`),
  the dependency display of `_format_table_section`, and the exception
  boundary of `build_report`.

Python dictionaries holding JSON-like configuration data are embedded as
association lists over an inductive `Value` type; Python sets become
`Finset String`; Python float arithmetic in the metrics is embedded as
exact rational arithmetic (the weights 0.6, 4.5, 1.2 become the
corresponding rationals); Python string comparison (code-point
lexicographic) is embedded as an explicit lexicographic order on the
underlying character lists, which the kernel can evaluate.
-/

namespace Airtable

/-! ### Python string ordering

Python compares strings lexicographically by code point.  The core
`String.le` of Lean is defined through well-founded recursion and does
not reduce in the kernel, so we use our own lexicographic comparison on
the underlying character lists and register the order-theoretic
instances needed by `Finset.sort` and `List.insertionSort`. -/

/-- Lexicographic comparison of two character lists by code point, the
order Python uses to compare strings. -/
def lexLe : List Char → List Char → Bool
  | [], _ => true
  | _ :: _, [] => false
  | a :: as, b :: bs =>
    if a < b then true
    else if b < a then false
    else lexLe as bs

/-- The Python string order `a <= b`, as a proposition. -/
def strLE (a b : String) : Prop := lexLe a.data b.data = true

instance : DecidableRel strLE := fun a b => inferInstanceAs (Decidable (_ = true))

instance : IsTrans String strLE where
  trans a b c h₁ h₂ := by
    have key : ∀ l₁ l₂ l₃ : List Char,
        lexLe l₁ l₂ = true → lexLe l₂ l₃ = true → lexLe l₁ l₃ = true := by
      intro l₁
      induction l₁ with
      | nil => intro l₂ l₃ _ _; rfl
      | cons x xs ih =>
        intro l₂ l₃ h₁ h₂
        cases l₂ with
        | nil => simp [lexLe] at h₁
        | cons y ys =>
          cases l₃ with
          | nil => simp [lexLe] at h₂
          | cons z zs =>
            rcases lt_trichotomy x y with hxy | hxy | hxy
            · rcases lt_trichotomy y z with hyz | hyz | hyz
              · simp [lexLe, lt_trans hxy hyz]
              · subst hyz; simp [lexLe, hxy]
              · simp [lexLe, hyz, not_lt.mpr (le_of_lt hyz)] at h₂
            · subst hxy
              rcases lt_trichotomy x z with hxz | hxz | hxz
              · simp [lexLe, hxz]
              · subst hxz
                simp only [lexLe, lt_irrefl, if_false] at h₁ h₂ ⊢
                exact ih ys zs h₁ h₂
              · simp [lexLe, hxz, not_lt.mpr (le_of_lt hxz)] at h₂
            · simp [lexLe, hxy, not_lt.mpr (le_of_lt hxy)] at h₁
    exact key a.data b.data c.data h₁ h₂

instance : IsAntisymm String strLE where
  antisymm a b h₁ h₂ := by
    have key : ∀ l₁ l₂ : List Char,
        lexLe l₁ l₂ = true → lexLe l₂ l₁ = true → l₁ = l₂ := by
      intro l₁
      induction l₁ with
      | nil =>
        intro l₂ _ h₂
        cases l₂ with
        | nil => rfl
        | cons y ys => simp [lexLe] at h₂
      | cons x xs ih =>
        intro l₂ h₁ h₂
        cases l₂ with
        | nil => simp [lexLe] at h₁
        | cons y ys =>
          rcases lt_trichotomy x y with hxy | hxy | hxy
          · simp [lexLe, hxy, not_lt.mpr (le_of_lt hxy)] at h₂
          · subst hxy
            simp only [lexLe, lt_irrefl, if_false] at h₁ h₂
            exact congrArg (x :: ·) (ih ys h₁ h₂)
          · simp [lexLe, hxy, not_lt.mpr (le_of_lt hxy)] at h₁
    exact String.ext (key a.data b.data h₁ h₂)

instance : IsTotal String strLE where
  total a b := by
    have key : ∀ l₁ l₂ : List Char, lexLe l₁ l₂ = true ∨ lexLe l₂ l₁ = true := by
      intro l₁
      induction l₁ with
      | nil => intro l₂; left; rfl
      | cons x xs ih =>
        intro l₂
        cases l₂ with
        | nil => right; rfl
        | cons y ys =>
          rcases lt_trichotomy x y with h | h | h
          · left; simp [lexLe, h]
          · subst h
            rcases ih ys with h' | h'
            · left; simp [lexLe, lt_irrefl, h']
            · right; simp [lexLe, lt_irrefl, h']
          · right; simp [lexLe, h]
    exact key a.data b.data

instance : IsRefl String strLE where
  refl a := by
    have key : ∀ l : List Char, lexLe l l = true := by
      intro l
      induction l with
      | nil => rfl
      | cons x xs ih => simp [lexLe, lt_irrefl, ih]
    exact key a.data

/-! ### Configuration values

A field's `options` mapping is JSON-like data: strings, numbers,
booleans, nulls, lists and nested mappings.  Python dictionaries are
embedded as association lists (Python dictionary keys are unique, so
`List.find?` agrees with dictionary lookup). -/

/-- A JSON-like configuration value, as found in a field's `options`
mapping. -/
inductive Value where
  | vnull : Value
  | vbool : Bool → Value
  | vint : Int → Value
  | vstr : String → Value
  | vlist : List Value → Value
  | vdict : List (String × Value) → Value

/-- Dictionary lookup, `configuration.get(key)`: `none` when the key is
absent. -/
def cfgGet (configuration : List (String × Value)) (key : String) : Option Value :=
  (configuration.find? (fun kv => kv.1 == key)).map (fun kv => kv.2)

/-! ### Data model

The raw schema shapes mirrored from `models` as the processor consumes
them (`AirtableBaseSchema`, `AirtableTable`, raw fields) and the derived
artifacts it produces (`FieldSummary`, `RelationshipSummary`,
`TableSummary`, `SchemaAnalysis`).  View data is carried through the
processor unchanged and never feeds any property verified here, so view
payloads are not modelled.  A raw field whose `options` mapping is
absent carries the empty association list (the source normalizes
`field.options or {}`). -/

/-- A raw Airtable field as consumed by `SchemaProcessor`. -/
structure AirtableField where
  id : String
  name : String
  type : String
  description : Option String
  options : List (String × Value)
  isPrimaryField : Bool

/-- A raw Airtable table as consumed by `SchemaProcessor`. -/
structure AirtableTable where
  id : String
  name : String
  description : Option String
  primaryFieldId : String
  fields : List AirtableField

/-- A raw Airtable base schema. -/
structure AirtableBaseSchema where
  id : String
  name : String
  tables : List AirtableTable

/-- Normalized field metadata (`FieldSummary`). -/
structure FieldSummary where
  id : String
  name : String
  type : String
  description : Option String
  isPrimary : Bool
  configuration : List (String × Value)
  linkedTableId : Option String
  linkedTableName : Option String

/-- A relationship edge (`RelationshipSummary`). -/
structure RelationshipSummary where
  fromTableId : String
  fromTableName : String
  fromFieldId : String
  fromFieldName : String
  toTableId : String
  toTableName : String
  relationshipType : String
  configuration : List (String × Value)

/-- Normalized table metadata (`TableSummary`); `dependencies` is the
sorted serialization of the table's dependency set produced by
`analyze_schema`. -/
structure TableSummary where
  id : String
  name : String
  description : Option String
  primaryFieldId : String
  fields : List FieldSummary
  dependencies : List String

/-- The analysis artifact (`SchemaAnalysis`). -/
structure SchemaAnalysis where
  baseId : String
  baseName : String
  tables : List TableSummary
  relationships : List RelationshipSummary
  suggestedTableCreationOrder : List String

/-! ### SchemaProcessor -/

/-- Embedding of `SchemaProcessor._normalize_configuration`: drop null-valued keys,
pass every other value through unchanged. -/
def normalizeConfiguration (options : List (String × Value)) : List (String × Value) :=
  options.filter (fun kv => match kv.2 with | Value.vnull => false | _ => true)

/-- The `isinstance(candidate, str)` test: keep an optional value only
when it is a string. -/
def asStr : Option Value → Option String
  | some (Value.vstr s) => some s
  | _ => none

/-- Embedding of `SchemaProcessor._extract_linked_table_id`: probe the direct
`linkedTableId`, `foreignTableId` and `recordLinkTableId` keys in that
order, returning the first value that is a string; otherwise look inside
a `rollup` and then a `lookup` source descriptor for a string
`linkedTableId`. -/
def extractLinkedTableId (configuration : List (String × Value)) : Option String :=
  let candidates := [cfgGet configuration "linkedTableId",
                     cfgGet configuration "foreignTableId",
                     cfgGet configuration "recordLinkTableId"]
  match candidates.findSome? asStr with
  | some s => some s
  | none =>
    match (match cfgGet configuration "rollup" with
           | some (Value.vdict d) => asStr (cfgGet d "linkedTableId")
           | _ => none : Option String) with
    | some s => some s
    | none =>
      match cfgGet configuration "lookup" with
      | some (Value.vdict d) => asStr (cfgGet d "linkedTableId")
      | _ => none

/-- The spec's reading of `_extract_linked_table_id`: the five candidate
sources in their fixed probe order — direct linked-table key, foreign
table key, record-link table key, the id nested in a rollup source
descriptor, the id nested in a lookup source descriptor — each kept only
when it holds a string. -/
def linkCandidates (configuration : List (String × Value)) : List (Option String) :=
  [asStr (cfgGet configuration "linkedTableId"),
   asStr (cfgGet configuration "foreignTableId"),
   asStr (cfgGet configuration "recordLinkTableId"),
   (match cfgGet configuration "rollup" with
    | some (Value.vdict d) => asStr (cfgGet d "linkedTableId")
    | _ => none),
   (match cfgGet configuration "lookup" with
    | some (Value.vdict d) => asStr (cfgGet d "linkedTableId")
    | _ => none)]

/-- Embedding of `SchemaProcessor._determine_relationship_type`: the `relational_types`
mapping with the field's own type as the default. -/
def determineRelationshipType (fieldType : String) : String :=
  if fieldType = "linkedRecord" then "linked_record"
  else if fieldType = "multipleRecordLinks" then "linked_record"
  else if fieldType = "rollup" then "rollup"
  else if fieldType = "lookup" then "lookup"
  else fieldType

/-- Embedding of `table_lookup.get(key)`: look a table id up in the id → name mapping. -/
def lookupGet (tableLookup : List (String × String)) (key : String) : Option String :=
  (tableLookup.find? (fun kv => kv.1 == key)).map (fun kv => kv.2)

/-- Embedding of `table_lookup.get(linked_table_id)` where the key itself is optional
(Python returns `None` when the key is `None`). -/
def lookupOpt (tableLookup : List (String × String)) : Option String → Option String
  | none => none
  | some k => lookupGet tableLookup k

/-- Embedding of `table_lookup.get(key, key)`: lookup with the key itself as default. -/
def lookupDefault (tableLookup : List (String × String)) (key : String) : String :=
  match lookupGet tableLookup key with
  | some v => v
  | none => key

/-- Python `a or b` on an optional string and a string: the left value
when it is a non-empty string, otherwise the right value (used for
`linked_table_name or linked_table_id`). -/
def pyOrStr (a : Option String) (b : String) : String :=
  match a with
  | some s => if s = "" then b else s
  | none => b

/-- The `FieldSummary` built by `_process_fields` for one field. -/
def mkFieldSummary (table : AirtableTable) (tableLookup : List (String × String))
    (field : AirtableField) : FieldSummary :=
  let configuration := normalizeConfiguration field.options
  let linkedTableId := extractLinkedTableId configuration
  { id := field.id
    name := field.name
    type := field.type
    description := field.description
    isPrimary := field.isPrimaryField || field.id == table.primaryFieldId
    configuration := configuration
    linkedTableId := linkedTableId
    linkedTableName := lookupOpt tableLookup linkedTableId }

/-- The `RelationshipSummary` recorded by `_process_fields` for a field
whose truthy linked-table id `ltid` differs from the table's own id. -/
def mkRelationship (table : AirtableTable) (field : AirtableField) (ltid : String)
    (linkedTableName : Option String) : RelationshipSummary :=
  { fromTableId := table.id
    fromTableName := table.name
    fromFieldId := field.id
    fromFieldName := field.name
    toTableId := ltid
    toTableName := pyOrStr linkedTableName ltid
    relationshipType := determineRelationshipType field.type
    configuration := normalizeConfiguration field.options }

/-- The loop body of `SchemaProcessor._process_fields`, structurally
recursive over the field list: build each field's summary, and when the
extracted linked-table id is truthy and different from the table's own
id, record a relationship edge and a dependency. -/
def processFieldsAux (table : AirtableTable) (tableLookup : List (String × String)) :
    List AirtableField → List FieldSummary × List RelationshipSummary × Finset String
  | [] => ([], [], ∅)
  | field :: rest =>
    let linkedTableId := extractLinkedTableId (normalizeConfiguration field.options)
    let linkedTableName := lookupOpt tableLookup linkedTableId
    let summary : FieldSummary := mkFieldSummary table tableLookup field
    let restResult := processFieldsAux table tableLookup rest
    match linkedTableId with
    | some ltid =>
      if ltid ≠ "" ∧ ltid ≠ table.id then
        (summary :: restResult.1,
         mkRelationship table field ltid linkedTableName :: restResult.2.1,
         insert ltid restResult.2.2)
      else (summary :: restResult.1, restResult.2.1, restResult.2.2)
    | none => (summary :: restResult.1, restResult.2.1, restResult.2.2)

/-- Embedding of `SchemaProcessor._process_fields`. -/
def processFields (table : AirtableTable) (tableLookup : List (String × String)) :
    List FieldSummary × List RelationshipSummary × Finset String :=
  processFieldsAux table tableLookup table.fields

/-! ### `SchemaProcessor._derive_creation_order`

The dependency graph is the association list `table id ↦ dependency
set`.  The in-degree and adjacency dictionaries are embedded as
functions, and the dictionary's key set (whose size the source compares
against `len(ordered)` to detect cycles) as a `Finset`.  The `while
queue` loop runs on explicit fuel; the fuel chosen in
`deriveCreationOrder` is provably enough for the loop to drain the
queue (each iteration pops one entry and every enqueue is paid for by a
positive in-degree decrement). -/

/-- Embedding of `sorted(s)` for a set of strings: the elements of `s` listed in
Python's ascending string order.  (Defined through `insertionSort`,
which the kernel can evaluate, rather than `Finset.sort`, whose
underlying `mergeSort` is opaque to kernel reduction; the two agree, see
`sortedList_eq_sort`.) -/
def sortedList (s : Finset String) : List String :=
  Quot.liftOn s.val (fun l => List.insertionSort strLE l) (fun l₁ l₂ h =>
    List.eq_of_perm_of_sorted
      (((List.perm_insertionSort strLE l₁).trans h).trans
        (List.perm_insertionSort strLE l₂).symm)
      (List.sorted_insertionSort strLE l₁) (List.sorted_insertionSort strLE l₂))

/-- The key set of the `indegree` dictionary after the two construction
loops: every table id, every dependency, and every graph key with a
nonempty dependency set. -/
def kahnKeys (graph : List (String × Finset String)) (tables : List AirtableTable) :
    Finset String :=
  (tables.map (fun t => t.id)).toFinset ∪
    graph.foldr (fun p acc => (p.2 ∪ (if p.2.Nonempty then {p.1} else ∅)) ∪ acc) ∅

/-- The constructed in-degree of a node: one unit per dependency of its
graph entry. -/
def kahnIndeg0 (graph : List (String × Finset String)) (k : String) : Int :=
  ((graph.filter (fun p => p.1 = k)).map (fun p => (p.2.card : Int))).sum

/-- The constructed adjacency sets: `kahnAdj graph d` holds the graph
keys whose dependency set contains `d`. -/
def kahnAdj (graph : List (String × Finset String)) (d : String) : Finset String :=
  ((graph.filter (fun p => d ∈ p.2)).map (fun p => p.1)).toFinset

/-- The inner `for neighbor in sorted(adjacency[current])` loop: each
neighbor's in-degree is decremented, and a neighbor whose in-degree
reaches zero is appended to the queue. -/
def decrementAll (neighbors : List String) (indeg : String → Int) (queue : List String) :
    (String → Int) × List String :=
  match neighbors with
  | [] => (indeg, queue)
  | n :: rest =>
    decrementAll rest (fun x => if x = n then indeg n - 1 else indeg x)
      (if indeg n - 1 = 0 then queue ++ [n] else queue)

/-- The `while queue` loop of `_derive_creation_order`, returning the
list of dequeued node ids and the final in-degree function. -/
def kahnLoop (adj : String → Finset String) :
    Nat → List String → (String → Int) → List String × (String → Int)
  | 0, _, indeg => ([], indeg)
  | _ + 1, [], indeg => ([], indeg)
  | fuel + 1, current :: rest, indeg =>
    let step := decrementAll (sortedList (adj current)) indeg rest
    let next := kahnLoop adj fuel step.2 step.1
    (current :: next.1, next.2)

/-- Embedding of `SchemaProcessor._derive_creation_order`: Kahn's algorithm seeded
with the id-sorted zero-in-degree nodes; when the produced sequence does
not cover the in-degree dictionary a cycle exists and the alphabetical
(by table name) fallback is returned instead.  The source appends
`table_lookup.get(current, current)` inside the loop; here the loop
returns ids and the same name resolution is applied afterwards. -/
def kahnSeed (graph : List (String × Finset String)) (tables : List AirtableTable) :
    List String :=
  sortedList ((kahnKeys graph tables).filter (fun k => kahnIndeg0 graph k = 0))

/-- The fuel handed to the embedded `while queue` loop: enough for the
seed and for one enqueue per unit of initial in-degree, which is proved
sufficient to drain the queue. -/
def kahnFuel (graph : List (String × Finset String)) (tables : List AirtableTable) : Nat :=
  (kahnSeed graph tables).length +
    (kahnKeys graph tables).sum (fun k => (kahnIndeg0 graph k).toNat)

/-- The sequence of node ids dequeued by the `while queue` loop of
`_derive_creation_order`. -/
def kahnOut (graph : List (String × Finset String)) (tables : List AirtableTable) :
    List String :=
  (kahnLoop (kahnAdj graph) (kahnFuel graph tables) (kahnSeed graph tables)
    (kahnIndeg0 graph)).1

/-- The in-degree dictionary as the `while queue` loop leaves it. -/
def kahnFinal (graph : List (String × Finset String)) (tables : List AirtableTable) :
    String → Int :=
  (kahnLoop (kahnAdj graph) (kahnFuel graph tables) (kahnSeed graph tables)
    (kahnIndeg0 graph)).2

def deriveCreationOrder (graph : List (String × Finset String))
    (tableLookup : List (String × String)) (tables : List AirtableTable) : List String :=
  if (kahnOut graph tables).length = (kahnKeys graph tables).card then
    (kahnOut graph tables).map (fun i => lookupDefault tableLookup i)
  else
    (List.insertionSort (fun a b => strLE a.name b.name) tables).map
      (fun t => lookupDefault tableLookup t.id)

instance : IsTotal AirtableTable (fun a b => strLE a.name b.name) :=
  ⟨fun a b => total_of strLE a.name b.name⟩

instance : IsTrans AirtableTable (fun a b => strLE a.name b.name) :=
  ⟨fun _ _ _ h₁ h₂ => trans_of strLE h₁ h₂⟩

instance : IsTotal AirtableTable (fun a b => strLE a.id b.id) :=
  ⟨fun a b => total_of strLE a.id b.id⟩

instance : IsTrans AirtableTable (fun a b => strLE a.id b.id) :=
  ⟨fun _ _ _ h₁ h₂ => trans_of strLE h₁ h₂⟩

/-- The id → name mapping `{table.id: table.name for table in schema.tables}`. -/
def tableLookupOf (schema : AirtableBaseSchema) : List (String × String) :=
  schema.tables.map (fun t => (t.id, t.name))

/-- The dependency set of one table, as computed by `_process_fields`. -/
def tableDeps (schema : AirtableBaseSchema) (table : AirtableTable) : Finset String :=
  (processFields table (tableLookupOf schema)).2.2

/-- The dependency graph `analyze_schema` hands to
`_derive_creation_order`: one entry per table, in table order. -/
def dependencyGraphOf (schema : AirtableBaseSchema) : List (String × Finset String) :=
  schema.tables.map (fun t => (t.id, tableDeps schema t))

/-- The `TableSummary` built by `analyze_schema` for one table, its
dependency set serialized sorted. -/
def mkTableSummary (schema : AirtableBaseSchema) (table : AirtableTable) : TableSummary :=
  { id := table.id
    name := table.name
    description := table.description
    primaryFieldId := table.primaryFieldId
    fields := (processFields table (tableLookupOf schema)).1
    dependencies := sortedList (tableDeps schema table) }

/-- Embedding of `SchemaProcessor.analyze_schema`. -/
def analyzeSchema (schema : AirtableBaseSchema) : SchemaAnalysis :=
  { baseId := schema.id
    baseName := schema.name
    tables := schema.tables.map (mkTableSummary schema)
    relationships :=
      schema.tables.flatMap (fun t => (processFields t (tableLookupOf schema)).2.1)
    suggestedTableCreationOrder :=
      deriveCreationOrder (dependencyGraphOf schema) (tableLookupOf schema) schema.tables }

/-- The creation order of a schema, as surfaced on the analysis artifact. -/
def creationOrder (schema : AirtableBaseSchema) : List String :=
  (analyzeSchema schema).suggestedTableCreationOrder

/-- The edge relation of the dependency graph: `depRel s a b` holds when
the table with id `a` depends on (links to) the table id `b`. -/
def depRel (schema : AirtableBaseSchema) (a b : String) : Prop :=
  ∃ t ∈ schema.tables, t.id = a ∧ b ∈ tableDeps schema t

/-! ### ReportBuilder

The class-level type sets and keyword tuples of `ReportBuilder`, the
field categorizer, the metrics computation, the dependency display of
`_format_table_section`, and the exception boundary of `build_report`. -/

/-- Embedding of `ReportBuilder.RELATIONSHIP_FIELD_TYPES`. -/
def relationshipFieldTypes : List String :=
  ["multipleRecordLinks", "singleRecordLink", "linkedRecord"]

/-- Embedding of `ReportBuilder.ASSIGNMENT_FIELD_TYPES`. -/
def assignmentFieldTypes : List String :=
  ["user", "collaborator", "multipleCollaborators"]

/-- Embedding of `ReportBuilder.METADATA_FIELD_TYPES`. -/
def metadataFieldTypes : List String :=
  ["createdTime", "lastModifiedTime", "createdBy", "lastModifiedBy",
   "autoNumber", "formula", "rollup", "lookup"]

/-- Embedding of `ReportBuilder.STATUS_FIELD_TYPES`. -/
def statusFieldTypes : List String :=
  ["singleSelect", "multipleSelects", "checkbox"]

/-- Embedding of `ReportBuilder.RATING_FIELD_TYPES`. -/
def ratingFieldTypes : List String := ["rating"]

/-- Embedding of `ReportBuilder.STATUS_KEYWORDS`. -/
def statusKeywords : List String := ["status", "stage", "state", "phase", "progress"]

/-- Embedding of `ReportBuilder.ASSIGNMENT_KEYWORDS`. -/
def assignmentKeywords : List String := ["assign", "owner", "lead", "manager", "responsible"]

/-- Embedding of `ReportBuilder.METADATA_KEYWORDS`. -/
def metadataKeywords : List String :=
  ["created", "updated", "modified", "timestamp", "notes", "description", "comment"]

/-- Embedding of `field.name.lower()`: case folding of the field name (the keyword
tables are ASCII, and `Char.toLower` lower-cases exactly the ASCII
letters). -/
def pyLower (s : String) : String := String.mk (s.data.map Char.toLower)

/-- Python's `needle in haystack` on strings: substring containment. -/
def strContains (haystack needle : String) : Bool :=
  decide (needle.data <:+: haystack.data)

/-- Python truthiness of an optional string: `None` and the empty string
are falsy. -/
def pyTruthyOptStr : Option String → Bool
  | none => false
  | some s => s ≠ ""

/-- Embedding of `ReportBuilder._categorize_field`: the ordered eight-way rule chain
over the field's type, primary flag, resolved linked-table name, and
lower-cased name. -/
def categorizeField (field : FieldSummary) : String :=
  let fieldType := field.type
  let nameLower := pyLower field.name
  if field.isPrimary || (fieldType ∈ ["singleLineText", "multilineText"] : Bool) then
    "Core Fields"
  else if (fieldType ∈ relationshipFieldTypes : Bool) || pyTruthyOptStr field.linkedTableName then
    "Relationship Fields"
  else if (fieldType ∈ assignmentFieldTypes : Bool) ||
      assignmentKeywords.any (fun keyword => strContains nameLower keyword) then
    "Assignment Fields"
  else if (fieldType ∈ statusFieldTypes : Bool) ||
      statusKeywords.any (fun keyword => strContains nameLower keyword) then
    "Status Management"
  else if (fieldType ∈ ratingFieldTypes : Bool) || strContains nameLower "rating" then
    "Rating Fields"
  else if (fieldType ∈ ["formula", "lookup", "rollup"] : Bool) then
    "Calculated Fields"
  else if (fieldType ∈ metadataFieldTypes : Bool) ||
      metadataKeywords.any (fun keyword => strContains nameLower keyword) then
    "Metadata Fields"
  else
    "Other Fields"

/-- The eight category names `_categorize_field` can produce, in rule
order. -/
def fieldCategories : List String :=
  ["Core Fields", "Relationship Fields", "Assignment Fields", "Status Management",
   "Rating Fields", "Calculated Fields", "Metadata Fields", "Other Fields"]

/-- The five per-field-type counters accumulated by the counting loop of
`_compute_metrics`. -/
structure MetricCounts where
  formulaCount : Nat
  lookupCount : Nat
  rollupCount : Nat
  linkedCount : Nat
  singleSelectCount : Nat

/-- One iteration of the counting loop of `_compute_metrics`: the
`if/elif` chain on the field's type, then the two independent `if`s. -/
def metricStep (acc : MetricCounts) (field : FieldSummary) : MetricCounts :=
  let acc1 :=
    if field.type = "formula" then { acc with formulaCount := acc.formulaCount + 1 }
    else if field.type = "lookup" then { acc with lookupCount := acc.lookupCount + 1 }
    else if field.type = "rollup" then { acc with rollupCount := acc.rollupCount + 1 }
    else acc
  let acc2 :=
    if (field.type ∈ relationshipFieldTypes : Bool) then
      { acc1 with linkedCount := acc1.linkedCount + 1 }
    else acc1
  if field.type = "singleSelect" then
    { acc2 with singleSelectCount := acc2.singleSelectCount + 1 }
  else acc2

/-- The full counting loop of `_compute_metrics` over every field of
every table. -/
def metricCounts (tables : List TableSummary) : MetricCounts :=
  tables.foldl (fun acc t => t.fields.foldl metricStep acc)
    { formulaCount := 0, lookupCount := 0, rollupCount := 0, linkedCount := 0,
      singleSelectCount := 0 }

/-- Python `int(x)`: truncation toward zero. -/
def pyInt (q : ℚ) : Int := if 0 ≤ q then ⌊q⌋ else ⌈q⌉

/-- Embedding of `ReportBuilder._classify_complexity`. -/
def classifyComplexity (score : ℚ) : String :=
  if score < 60 then "Low"
  else if score < 120 then "Moderate"
  else if score < 180 then "High"
  else "Very High"

/-- The metrics fields of `ReportMetrics` that the verified properties
are about (the relationship-kind counter, the target index and the
critical-dependency ranking are not modelled). -/
structure ReportMetrics where
  tableCount : Nat
  fieldCount : Nat
  relationshipCount : Nat
  formulaCount : Nat
  lookupCount : Nat
  rollupCount : Nat
  linkedCount : Nat
  singleSelectCount : Nat
  complexityScore : ℚ
  complexityLabel : String
  estimatedTimeMinutes : Int

/-- Embedding of `ReportBuilder._compute_metrics`: counts, the weighted complexity
score, its label, and the estimated duplication time. -/
def computeMetrics (analysis : SchemaAnalysis) : ReportMetrics :=
  let tableCount : Nat := analysis.tables.length
  let fieldCount : Nat := (analysis.tables.map (fun t => t.fields.length)).sum
  let counts := metricCounts analysis.tables
  let relationshipCount := analysis.relationships.length
  let complexityScore : ℚ :=
    (tableCount : ℚ) * 5 + (fieldCount : ℚ) * 0.6 + (relationshipCount : ℚ) * 4 +
      (counts.formulaCount : ℚ) * 6 + (counts.lookupCount : ℚ) * 4 +
      (counts.rollupCount : ℚ) * 4.5 + (counts.linkedCount : ℚ) * 3
  { tableCount := tableCount
    fieldCount := fieldCount
    relationshipCount := relationshipCount
    formulaCount := counts.formulaCount
    lookupCount := counts.lookupCount
    rollupCount := counts.rollupCount
    linkedCount := counts.linkedCount
    singleSelectCount := counts.singleSelectCount
    complexityScore := complexityScore
    complexityLabel := classifyComplexity complexityScore
    estimatedTimeMinutes :=
      max 30 (pyInt ((tableCount : ℚ) * 20 + (fieldCount : ℚ) * 1.2 +
        (relationshipCount : ℚ) * 5 + (counts.formulaCount : ℚ) * 8 +
        (counts.lookupCount : ℚ) * 6 + (counts.rollupCount : ℚ) * 6)) }

/-- The dependency display of `ReportBuilder._format_table_section`:
each stored dependency id resolved through `table_lookup.get(dep, dep)`,
then falsy (empty) names dropped; the resulting names are joined on the
"Depends on:" line in this exact order. -/
def dependencyNames (tableLookup : List (String × String)) (table : TableSummary) :
    List String :=
  (table.dependencies.map (fun dep => lookupDefault tableLookup dep)).filter
    (fun name => name ≠ "")

/-! ### `build_report` exception boundary

`build_report` runs its whole pipeline inside one `try`, and its
`except Exception` clause re-raises every failure as
`ReportGenerationError("Failed to build markdown report.") from exc`.
The rendering stages themselves are embedded as one fallible
computation (`Except PyExc String`), since the property quantifies over
an arbitrary exception arising anywhere in the pipeline. -/

/-- An arbitrary Python exception raised inside the rendering pipeline,
identified by its class name and message. -/
structure PyExc where
  kind : String
  message : String

/-- What `build_report` can raise: the umbrella `ReportGenerationError`
(carrying the original cause), or — hypothetically — an unwrapped
propagated exception.  The theorem shows the second constructor is
never produced. -/
inductive ReportError where
  | reportGenerationError : String → PyExc → ReportError
  | propagated : PyExc → ReportError

/-- Embedding of `ReportBuilder.build_report`'s boundary: return the rendered report,
or wrap any pipeline exception in a single `ReportGenerationError`
whose cause is the original exception. -/
def buildReport (body : Except PyExc String) : Except ReportError String :=
  match body with
  | Except.ok report => Except.ok report
  | Except.error exc =>
    Except.error (ReportError.reportGenerationError "Failed to build markdown report." exc)

/-! ### Specification-side counting functions

Independent (filter-based) formulations of the quantities the metrics
formulas are stated over; the theorems relate the counting loop of
`_compute_metrics` to these. -/

/-- All field summaries of an analysis, in table order. -/
def fieldsOfAnalysis (analysis : SchemaAnalysis) : List FieldSummary :=
  analysis.tables.flatMap (fun t => t.fields)

/-- The number of fields of an analysis with the given type. -/
def countFieldType (analysis : SchemaAnalysis) (ty : String) : Nat :=
  (fieldsOfAnalysis analysis).countP (fun f => f.type == ty)

/-- The number of link-type fields of an analysis. -/
def countLinkedFields (analysis : SchemaAnalysis) : Nat :=
  (fieldsOfAnalysis analysis).countP (fun f => (f.type ∈ relationshipFieldTypes : Bool))

/-! ### Concrete example schemas

Small concrete bases used to instantiate the theorems and to exhibit
counterexamples. -/

/-- A link-type field with the given name and target table id. -/
def linkFieldTo (fieldId fieldName target : String) : AirtableField :=
  { id := fieldId, name := fieldName, type := "multipleRecordLinks", description := none,
    options := [("linkedTableId", Value.vstr target)], isPrimaryField := false }

/-- Two independent tables whose id order (`"ta"` before `"tb"`) is the
reverse of their name order (`"Zed"` after `"Alpha"`): both are eligible
simultaneously when the processing queue is seeded. -/
def exSeed : AirtableBaseSchema :=
  { id := "appSeed", name := "Seed"
    tables :=
      [ { id := "ta", name := "Zed", description := none, primaryFieldId := "f1", fields := [] },
        { id := "tb", name := "Alpha", description := none, primaryFieldId := "f2", fields := [] } ] }

/-- The Projects table of the two-table example base. -/
def exProjects : AirtableTable :=
  { id := "tblProjects", name := "Projects", description := none, primaryFieldId := "p1",
    fields := [] }

/-- The Tasks table of the two-table example base: one link field to
Projects. -/
def exTasks : AirtableTable :=
  { id := "tblTasks", name := "Tasks", description := none, primaryFieldId := "t1",
    fields := [linkFieldTo "fldProject" "Project" "tblProjects"] }

/-- The two-table Projects/Tasks base: Tasks links to Projects. -/
def exLink : AirtableBaseSchema :=
  { id := "appLink", name := "Ops", tables := [exProjects, exTasks] }

/-- A table with a self-referential link field. -/
def exSelf : AirtableBaseSchema :=
  { id := "appSelf", name := "Selfy"
    tables :=
      [ { id := "tblNodes", name := "Nodes", description := none, primaryFieldId := "n1",
          fields := [linkFieldTo "fldParent" "Parent" "tblNodes"] } ] }

/-- A base whose first table depends on two others whose id order
(`"tb"` before `"tc"`) is the reverse of their name order (`"Zed"`
after `"Alpha"`). -/
def exDeps : AirtableBaseSchema :=
  { id := "appDeps", name := "Deps"
    tables :=
      [ { id := "ta", name := "Main", description := none, primaryFieldId := "m1",
          fields := [linkFieldTo "fldZ" "ZLink" "tb", linkFieldTo "fldA" "ALink" "tc"] },
        { id := "tb", name := "Zed", description := none, primaryFieldId := "z1", fields := [] },
        { id := "tc", name := "Alpha", description := none, primaryFieldId := "a1", fields := [] } ] }

/-- A primary single-line-text field summary. -/
def exPrimaryField : FieldSummary :=
  { id := "fldName", name := "Name", type := "singleLineText", description := none,
    isPrimary := true, configuration := [], linkedTableId := none, linkedTableName := none }

/-! ## Theorems -/

/-! ### Generic facts about the embedding -/

theorem sortedList_eq_sort (s : Finset String) : sortedList s = Finset.sort strLE s := by
  rcases s with ⟨val, nodup⟩
  induction val using Quot.inductionOn with
  | h l =>
    refine List.eq_of_perm_of_sorted ?_ (List.sorted_insertionSort strLE l)
      (Finset.sort_sorted strLE _)
    have h := Finset.sort_eq strLE (⟨Quot.mk _ l, nodup⟩ : Finset String)
    exact (List.perm_insertionSort strLE l).trans (Multiset.coe_eq_coe.mp h).symm

theorem sortedList_sorted (s : Finset String) : List.Sorted strLE (sortedList s) := by
  rw [sortedList_eq_sort]; exact Finset.sort_sorted strLE s

theorem sortedList_nodup (s : Finset String) : (sortedList s).Nodup := by
  rw [sortedList_eq_sort]; exact Finset.sort_nodup strLE s

theorem mem_sortedList {s : Finset String} {a : String} : a ∈ sortedList s ↔ a ∈ s := by
  rw [sortedList_eq_sort]; exact Finset.mem_sort strLE

theorem length_sortedList (s : Finset String) : (sortedList s).length = s.card := by
  rw [sortedList_eq_sort]; exact Finset.length_sort strLE

/-- Unfolding equation for `_process_fields` on a field with no
extracted linked-table id. -/
theorem processFieldsAux_cons_none (table : AirtableTable)
    (tableLookup : List (String × String)) (field : AirtableField)
    (rest : List AirtableField)
    (h : extractLinkedTableId (normalizeConfiguration field.options) = none) :
    processFieldsAux table tableLookup (field :: rest) =
      (mkFieldSummary table tableLookup field :: (processFieldsAux table tableLookup rest).1,
       (processFieldsAux table tableLookup rest).2.1,
       (processFieldsAux table tableLookup rest).2.2) := by
  simp only [processFieldsAux, h]

/-- Unfolding equation for `_process_fields` on a field whose extracted
linked-table id is falsy or self-referential: the field is summarized
but neither an edge nor a dependency is recorded. -/
theorem processFieldsAux_cons_skip (table : AirtableTable)
    (tableLookup : List (String × String)) (field : AirtableField)
    (rest : List AirtableField) (ltid : String)
    (h : extractLinkedTableId (normalizeConfiguration field.options) = some ltid)
    (hguard : ¬(ltid ≠ "" ∧ ltid ≠ table.id)) :
    processFieldsAux table tableLookup (field :: rest) =
      (mkFieldSummary table tableLookup field :: (processFieldsAux table tableLookup rest).1,
       (processFieldsAux table tableLookup rest).2.1,
       (processFieldsAux table tableLookup rest).2.2) := by
  simp only [processFieldsAux, h]
  rw [if_neg hguard]

/-- Unfolding equation for `_process_fields` on a field whose extracted
linked-table id is truthy and not the table's own id. -/
theorem processFieldsAux_cons_link (table : AirtableTable)
    (tableLookup : List (String × String)) (field : AirtableField)
    (rest : List AirtableField) (ltid : String)
    (h : extractLinkedTableId (normalizeConfiguration field.options) = some ltid)
    (hguard : ltid ≠ "" ∧ ltid ≠ table.id) :
    processFieldsAux table tableLookup (field :: rest) =
      (mkFieldSummary table tableLookup field :: (processFieldsAux table tableLookup rest).1,
       mkRelationship table field ltid (lookupOpt tableLookup (some ltid)) ::
         (processFieldsAux table tableLookup rest).2.1,
       insert ltid (processFieldsAux table tableLookup rest).2.2) := by
  simp only [processFieldsAux, h]
  rw [if_pos hguard]

/-- The field summaries produced by `_process_fields` are exactly the
per-field summaries, one per field, in field order. -/
theorem processFieldsAux_fst (table : AirtableTable) (tableLookup : List (String × String)) :
    ∀ fs : List AirtableField,
      (processFieldsAux table tableLookup fs).1 = fs.map (mkFieldSummary table tableLookup) := by
  intro fs
  induction fs with
  | nil => rfl
  | cons field rest ih =>
    rcases hx : extractLinkedTableId (normalizeConfiguration field.options) with _ | ltid
    · rw [processFieldsAux_cons_none table tableLookup field rest hx, List.map_cons, ih]
    · by_cases hguard : ltid ≠ "" ∧ ltid ≠ table.id
      · rw [processFieldsAux_cons_link table tableLookup field rest ltid hx hguard,
          List.map_cons, ih]
      · rw [processFieldsAux_cons_skip table tableLookup field rest ltid hx hguard,
          List.map_cons, ih]

/-- Every relationship edge produced by `_process_fields` originates
from a field of the table, carries the table's id and name, the field's
id and name, the relationship kind derived from the field's type, and a
target that is the field's extracted linked-table id — truthy and
different from the table's own id — which is also recorded as a
dependency. -/
theorem processFieldsAux_rels (table : AirtableTable) (tableLookup : List (String × String)) :
    ∀ fs : List AirtableField, ∀ e ∈ (processFieldsAux table tableLookup fs).2.1,
      ∃ f ∈ fs,
        extractLinkedTableId (normalizeConfiguration f.options) = some e.toTableId ∧
        e.toTableId ≠ "" ∧ e.toTableId ≠ table.id ∧ e.fromTableId = table.id ∧
        e.fromTableName = table.name ∧ e.fromFieldId = f.id ∧ e.fromFieldName = f.name ∧
        e.relationshipType = determineRelationshipType f.type ∧
        e.toTableId ∈ (processFieldsAux table tableLookup fs).2.2 := by
  intro fs
  induction fs with
  | nil => intro e he; simp [processFieldsAux] at he
  | cons field rest ih =>
    intro e he
    rcases hx : extractLinkedTableId (normalizeConfiguration field.options) with _ | ltid
    · rw [processFieldsAux_cons_none table tableLookup field rest hx] at he ⊢
      obtain ⟨f, hf, hrest⟩ := ih e he
      exact ⟨f, List.mem_cons_of_mem _ hf, hrest⟩
    · by_cases hguard : ltid ≠ "" ∧ ltid ≠ table.id
      · rw [processFieldsAux_cons_link table tableLookup field rest ltid hx hguard] at he ⊢
        rcases List.mem_cons.mp he with he | he
        · subst he
          exact ⟨field, List.mem_cons_self _ _, hx, hguard.1, hguard.2, rfl, rfl, rfl, rfl,
            rfl, Finset.mem_insert_self _ _⟩
        · obtain ⟨f, hf, h1, h2, h3, h4, h5, h6, h7, h8, h9⟩ := ih e he
          exact ⟨f, List.mem_cons_of_mem _ hf, h1, h2, h3, h4, h5, h6, h7, h8,
            Finset.mem_insert_of_mem h9⟩
      · rw [processFieldsAux_cons_skip table tableLookup field rest ltid hx hguard] at he ⊢
        obtain ⟨f, hf, hrest⟩ := ih e he
        exact ⟨f, List.mem_cons_of_mem _ hf, hrest⟩

/-- Every dependency recorded by `_process_fields` is a truthy linked
table id extracted from one of the table's fields, and is never the
table's own id. -/
theorem processFieldsAux_deps (table : AirtableTable) (tableLookup : List (String × String)) :
    ∀ fs : List AirtableField, ∀ d ∈ (processFieldsAux table tableLookup fs).2.2,
      d ≠ "" ∧ d ≠ table.id ∧
        ∃ f ∈ fs, extractLinkedTableId (normalizeConfiguration f.options) = some d := by
  intro fs
  induction fs with
  | nil => intro d hd; simp [processFieldsAux] at hd
  | cons field rest ih =>
    intro d hd
    rcases hx : extractLinkedTableId (normalizeConfiguration field.options) with _ | ltid
    · rw [processFieldsAux_cons_none table tableLookup field rest hx] at hd
      obtain ⟨h1, h2, f, hf, h3⟩ := ih d hd
      exact ⟨h1, h2, f, List.mem_cons_of_mem _ hf, h3⟩
    · by_cases hguard : ltid ≠ "" ∧ ltid ≠ table.id
      · rw [processFieldsAux_cons_link table tableLookup field rest ltid hx hguard] at hd
        rcases Finset.mem_insert.mp hd with hd | hd
        · subst hd
          exact ⟨hguard.1, hguard.2, field, List.mem_cons_self _ _, hx⟩
        · obtain ⟨h1, h2, f, hf, h3⟩ := ih d hd
          exact ⟨h1, h2, f, List.mem_cons_of_mem _ hf, h3⟩
      · rw [processFieldsAux_cons_skip table tableLookup field rest ltid hx hguard] at hd
        obtain ⟨h1, h2, f, hf, h3⟩ := ih d hd
        exact ⟨h1, h2, f, List.mem_cons_of_mem _ hf, h3⟩

/-! ### The Kahn loop

Generic facts about the embedded `while queue` loop: the inner
decrement loop in closed form, and the main invariant of the loop —
popped nodes are distinct, stay inside the key universe, are popped only
after all their graph predecessors, the in-degree function tracks the
not-yet-popped predecessors, and (with the fuel used by
`deriveCreationOrder`) the queue is fully drained. -/

theorem decrementAll_eq : ∀ (ns : List String) (indeg : String → Int) (queue : List String),
    ns.Nodup →
    decrementAll ns indeg queue =
      (fun x => if x ∈ ns then indeg x - 1 else indeg x,
       queue ++ ns.filter (fun n => indeg n = 1)) := by
  intro ns
  induction ns with
  | nil =>
    intro indeg queue _
    simp [decrementAll]
  | cons n rest ih =>
    intro indeg queue hnd
    have hn : n ∉ rest := (List.nodup_cons.mp hnd).1
    have hrest : rest.Nodup := (List.nodup_cons.mp hnd).2
    simp only [decrementAll]
    rw [ih _ _ hrest, Prod.mk.injEq]
    constructor
    · funext x
      by_cases hx : x = n
      · subst hx
        simp [hn]
      · by_cases hxr : x ∈ rest
        · simp [hxr, hx]
        · simp [hxr, hx]
    · have hfil : rest.filter (fun m => (if m = n then indeg n - 1 else indeg m) = 1) =
          rest.filter (fun m => indeg m = 1) := by
        apply List.filter_congr
        intro m hm
        have : m ≠ n := fun h => hn (h ▸ hm)
        simp [this]
      rw [hfil]
      by_cases h : indeg n = 1
      · have h0 : indeg n - 1 = 0 := by omega
        rw [if_pos h0]
        simp [h, List.append_assoc]
      · have h0 : ¬(indeg n - 1 = 0) := by omega
        rw [if_neg h0]
        simp [h]

theorem kahnLoop_nil (adj : String → Finset String) (fuel : Nat) (indeg : String → Int) :
    (kahnLoop adj fuel [] indeg) = ([], indeg) := by
  cases fuel <;> rfl

theorem kahnLoop_cons (adj : String → Finset String) (fuel : Nat) (current : String)
    (rest : List String) (indeg : String → Int) :
    kahnLoop adj (fuel + 1) (current :: rest) indeg =
      ((current :: (kahnLoop adj fuel
          (decrementAll (sortedList (adj current)) indeg rest).2
          (decrementAll (sortedList (adj current)) indeg rest).1).1),
       (kahnLoop adj fuel
          (decrementAll (sortedList (adj current)) indeg rest).2
          (decrementAll (sortedList (adj current)) indeg rest).1).2) := rfl

/-- The main invariant of the embedded Kahn loop.  Starting from a
state where `P` is the list of already-popped nodes, the queue holds
exactly the enqueued-but-unpopped nodes, and `indeg` counts each node's
not-yet-popped predecessors, the loop (given fuel at least the queue
length plus the total positive in-degree) pops a duplicate-free sequence
of keys containing the whole queue, pops every node only after all its
predecessors, and ends — queue drained — with the in-degree function
counting the predecessors left unpopped and with a node popped exactly
when its final in-degree is nonpositive. -/
theorem kahnLoop_spec (adj : String → Finset String) (keys : Finset String)
    (indeg0 : String → Int)
    (hadj : ∀ b : String, adj b ⊆ keys)
    (hindeg0 : ∀ a ∈ keys, indeg0 a = ((keys.filter (fun b => a ∈ adj b)).card : Int)) :
    ∀ (fuel : Nat) (queue P : List String) (indeg : String → Int),
      (∀ x ∈ P, x ∈ keys) → (∀ x ∈ queue, x ∈ keys) →
      P.Nodup → queue.Nodup → (∀ x ∈ queue, x ∉ P) →
      (∀ a, indeg a = indeg0 a - ((P.filter (fun b => a ∈ adj b)).length : Int)) →
      (∀ a ∈ keys, (a ∈ P ∨ a ∈ queue ↔ indeg a ≤ 0)) →
      queue.length + keys.sum (fun k => (indeg k).toNat) ≤ fuel →
      (P ++ (kahnLoop adj fuel queue indeg).1).Nodup ∧
      (∀ x ∈ (kahnLoop adj fuel queue indeg).1, x ∈ keys) ∧
      (∀ x ∈ queue, x ∈ (kahnLoop adj fuel queue indeg).1) ∧
      (∀ o1 a o2, (kahnLoop adj fuel queue indeg).1 = o1 ++ a :: o2 →
        ∀ b ∈ keys, a ∈ adj b → b ∈ P ++ o1) ∧
      (∀ a, (kahnLoop adj fuel queue indeg).2 a =
        indeg0 a -
          (((P ++ (kahnLoop adj fuel queue indeg).1).filter (fun b => a ∈ adj b)).length : Int)) ∧
      (∀ a ∈ keys,
        (a ∈ P ++ (kahnLoop adj fuel queue indeg).1 ↔ (kahnLoop adj fuel queue indeg).2 a ≤ 0)) := by
  intro fuel
  induction fuel with
  | zero =>
    intro queue P indeg hPk hQk hPnd hQnd hDisj hI2 hI4 hFuel
    have hq : queue = [] := by
      have hlen : queue.length = 0 := by omega
      exact List.length_eq_zero.mp hlen
    subst hq
    rw [kahnLoop_nil]
    refine ⟨by simpa using hPnd, by simp, by simp, ?_, ?_, ?_⟩
    · intro o1 a o2 h
      simp at h
    · intro a
      simpa using hI2 a
    · intro a ha
      simpa using hI4 a ha
  | succ fuel ih =>
    intro queue P indeg hPk hQk hPnd hQnd hDisj hI2 hI4 hFuel
    cases queue with
    | nil =>
      rw [kahnLoop_nil]
      refine ⟨by simpa using hPnd, by simp, by simp, ?_, ?_, ?_⟩
      · intro o1 a o2 h
        simp at h
      · intro a
        simpa using hI2 a
      · intro a ha
        simpa using hI4 a ha
    | cons current rest =>
      have hckey : current ∈ keys := hQk current (List.mem_cons_self _ _)
      have hcindeg : indeg current ≤ 0 := (hI4 current hckey).mp (Or.inr (List.mem_cons_self _ _))
      have hcnotP : current ∉ P := hDisj current (List.mem_cons_self _ _)
      have hrestnd : rest.Nodup := (List.nodup_cons.mp hQnd).2
      have hcnotrest : current ∉ rest := (List.nodup_cons.mp hQnd).1
      have hnsnd : (sortedList (adj current)).Nodup := sortedList_nodup _
      have hstep := decrementAll_eq (sortedList (adj current)) indeg rest hnsnd
      -- the state after processing `current`
      have hloop : kahnLoop adj (fuel + 1) (current :: rest) indeg =
          (current :: (kahnLoop adj fuel
              (rest ++ (sortedList (adj current)).filter (fun n => indeg n = 1))
              (fun x => if x ∈ sortedList (adj current) then indeg x - 1 else indeg x)).1,
           (kahnLoop adj fuel
              (rest ++ (sortedList (adj current)).filter (fun n => indeg n = 1))
              (fun x => if x ∈ sortedList (adj current) then indeg x - 1 else indeg x)).2) := by
        rw [kahnLoop_cons, hstep]
      -- abbreviations for the successor state
      set enq := (sortedList (adj current)).filter (fun n => indeg n = 1) with henq
      set queue2 := rest ++ enq with hqueue2
      set indeg2 := fun x => if x ∈ sortedList (adj current) then indeg x - 1 else indeg x
        with hindeg2
      have hmemns : ∀ x : String, x ∈ sortedList (adj current) ↔ x ∈ adj current :=
        fun x => mem_sortedList
      have henqmem : ∀ x : String, x ∈ enq ↔ x ∈ adj current ∧ indeg x = 1 := by
        intro x
        rw [henq, List.mem_filter]
        simp [hmemns]
      -- every predecessor of `current` is already popped
      have preds_in_P : ∀ b ∈ keys, current ∈ adj b → b ∈ P := by
        intro b hb hbadj
        have h2 : indeg0 current ≤ ((P.filter (fun b => current ∈ adj b)).length : Int) := by
          have := hI2 current
          omega
        have hcard : ((keys.filter (fun b => current ∈ adj b)).card : Int) ≤
            ((P.filter (fun b => current ∈ adj b)).length : Int) := by
          rw [← hindeg0 current hckey]
          exact h2
        have hsub : (P.filter (fun b => current ∈ adj b)).toFinset ⊆
            keys.filter (fun b => current ∈ adj b) := by
          intro x hx
          rw [List.mem_toFinset, List.mem_filter] at hx
          refine Finset.mem_filter.mpr ⟨hPk x hx.1, ?_⟩
          exact of_decide_eq_true hx.2
        have hlen : (P.filter (fun b => current ∈ adj b)).toFinset.card =
            (P.filter (fun b => current ∈ adj b)).length :=
          List.toFinset_card_of_nodup (hPnd.filter _)
        have heq : keys.filter (fun b => current ∈ adj b) =
            (P.filter (fun b => current ∈ adj b)).toFinset := by
          refine (Finset.eq_of_subset_of_card_le hsub ?_).symm
          omega
        have hbin : b ∈ keys.filter (fun b => current ∈ adj b) :=
          Finset.mem_filter.mpr ⟨hb, hbadj⟩
        rw [heq, List.mem_toFinset, List.mem_filter] at hbin
        exact hbin.1
      -- hypotheses for the recursive call
      have hPk2 : ∀ x ∈ P ++ [current], x ∈ keys := by
        intro x hx
        rcases List.mem_append.mp hx with hx | hx
        · exact hPk x hx
        · rw [List.mem_singleton] at hx
          exact hx ▸ hckey
      have hQk2 : ∀ x ∈ queue2, x ∈ keys := by
        intro x hx
        rcases List.mem_append.mp hx with hx | hx
        · exact hQk x (List.mem_cons_of_mem _ hx)
        · exact hadj current ((henqmem x).mp hx).1
      have hPnd2 : (P ++ [current]).Nodup := by
        simp [List.nodup_append, hPnd, hcnotP]
      have hnotPQ : ∀ x : String, x ∈ keys → 0 < indeg x → x ∉ P ∧ x ∉ rest ∧ x ≠ current := by
        intro x hx hpos
        have := (hI4 x hx)
        constructor
        · intro hmem
          have := this.mp (Or.inl hmem)
          omega
        constructor
        · intro hmem
          have := this.mp (Or.inr (List.mem_cons_of_mem _ hmem))
          omega
        · intro hmem
          subst hmem
          omega
      have hQnd2 : queue2.Nodup := by
        rw [hqueue2, List.nodup_append]
        refine ⟨hrestnd, hnsnd.filter _, ?_⟩
        intro x hx hx'
        have h1 := (henqmem x).mp hx'
        have hxkeys : x ∈ keys := hadj current h1.1
        have := hnotPQ x hxkeys (by omega)
        exact this.2.1 hx
      have hDisj2 : ∀ x ∈ queue2, x ∉ P ++ [current] := by
        intro x hx hmem
        rcases List.mem_append.mp hmem with hm | hm
        · rcases List.mem_append.mp hx with hx | hx
          · exact hDisj x (List.mem_cons_of_mem _ hx) hm
          · have h1 := (henqmem x).mp hx
            have hxkeys : x ∈ keys := hadj current h1.1
            exact (hnotPQ x hxkeys (by omega)).1 hm
        · rw [List.mem_singleton] at hm
          subst hm
          rcases List.mem_append.mp hx with hx | hx
          · exact hcnotrest hx
          · have h1 := (henqmem x).mp hx
            omega
      have hI22 : ∀ a, indeg2 a =
          indeg0 a - (((P ++ [current]).filter (fun b => a ∈ adj b)).length : Int) := by
        intro a
        rw [List.filter_append, List.length_append]
        by_cases ha : a ∈ adj current
        · have hone : ([current].filter (fun b => a ∈ adj b)).length = 1 := by
            simp [ha]
          rw [hone, hindeg2]
          have := hI2 a
          simp only [(hmemns a).mpr ha, if_pos]
          push_cast
          omega
        · have hzero : ([current].filter (fun b => a ∈ adj b)).length = 0 := by
            simp [ha]
          rw [hzero, hindeg2]
          have hnotns : a ∉ sortedList (adj current) := fun h => ha ((hmemns a).mp h)
          simp only [hnotns, if_neg, if_false]
          have := hI2 a
          omega
      have hI42 : ∀ a ∈ keys, (a ∈ P ++ [current] ∨ a ∈ queue2 ↔ indeg2 a ≤ 0) := by
        intro a ha
        have hold := hI4 a ha
        by_cases hc : a = current
        · subst hc
          constructor
          · intro _
            rw [hindeg2]
            by_cases hm : a ∈ sortedList (adj a) <;> simp [hm] <;> omega
          · intro _
            exact Or.inl (List.mem_append.mpr (Or.inr (List.mem_singleton.mpr rfl)))
        · have hmema : a ∈ P ++ [current] ↔ a ∈ P := by
            rw [List.mem_append, List.mem_singleton]
            constructor
            · intro h
              rcases h with h | h
              · exact h
              · exact absurd h hc
            · exact Or.inl
          by_cases hns : a ∈ adj current
          · have hain : a ∈ sortedList (adj current) := (hmemns a).mpr hns
            have hdeg2 : indeg2 a = indeg a - 1 := by
              rw [hindeg2]
              simp [hain]
            rcases lt_trichotomy (indeg a) 1 with h1 | h1 | h1
            · -- indeg a ≤ 0 : already enqueued or popped; stays
              have hold' := hold.mpr (by omega)
              constructor
              · intro _
                omega
              · intro _
                rcases hold' with h | h
                · exact Or.inl (hmema.mpr h)
                · rcases List.mem_cons.mp h with h | h
                  · exact absurd h hc
                  · exact Or.inr (List.mem_append.mpr (Or.inl h))
            · -- indeg a = 1 : newly enqueued now
              constructor
              · intro _
                omega
              · intro _
                refine Or.inr (List.mem_append.mpr (Or.inr ?_))
                exact (henqmem a).mpr ⟨hns, h1⟩
            · -- indeg a ≥ 2 : still waiting
              constructor
              · intro hmem
                rcases hmem with hmem | hmem
                · have := hold.mp (Or.inl (hmema.mp hmem))
                  omega
                · rcases List.mem_append.mp hmem with hmem | hmem
                  · have := hold.mp (Or.inr (List.mem_cons_of_mem _ hmem))
                    omega
                  · have := (henqmem a).mp hmem
                    omega
              · intro h
                omega
          · have hnotin : a ∉ sortedList (adj current) := fun h => hns ((hmemns a).mp h)
            have hdeg2 : indeg2 a = indeg a := by
              rw [hindeg2]
              simp [hnotin]
            rw [hdeg2, hmema]
            constructor
            · intro h
              refine hold.mp ?_
              rcases h with h | h
              · exact Or.inl h
              · rcases List.mem_append.mp h with h | h
                · exact Or.inr (List.mem_cons_of_mem _ h)
                · exact absurd ((henqmem a).mp h).1 hns
            · intro h
              rcases hold.mpr h with h' | h'
              · exact Or.inl h'
              · rcases List.mem_cons.mp h' with h' | h'
                · exact absurd h' hc
                · exact Or.inr (List.mem_append.mpr (Or.inl h'))
      have hFuel2 : queue2.length + keys.sum (fun k => (indeg2 k).toNat) ≤ fuel := by
        have hsum : keys.sum (fun k => (indeg2 k).toNat) +
            (keys.filter (fun k => k ∈ sortedList (adj current) ∧ 1 ≤ indeg k)).card =
            keys.sum (fun k => (indeg k).toNat) := by
          rw [Finset.card_filter, ← Finset.sum_add_distrib]
          apply Finset.sum_congr rfl
          intro k _
          by_cases hp : k ∈ sortedList (adj current) ∧ 1 ≤ indeg k
          · rw [if_pos hp]
            have e1 : indeg2 k = indeg k - 1 := by
              simp only [hindeg2]
              exact if_pos hp.1
            rw [e1]
            omega
          · rw [if_neg hp]
            by_cases h1 : k ∈ sortedList (adj current)
            · have h2 : ¬1 ≤ indeg k := fun h => hp ⟨h1, h⟩
              have e1 : indeg2 k = indeg k - 1 := by
                simp only [hindeg2]
                exact if_pos h1
              rw [e1]
              omega
            · have e1 : indeg2 k = indeg k := by
                simp only [hindeg2]
                exact if_neg h1
              rw [e1]
              omega
        have henqlen : enq.length ≤
            (keys.filter (fun k => k ∈ sortedList (adj current) ∧ 1 ≤ indeg k)).card := by
          have hnd : enq.Nodup := hnsnd.filter _
          rw [← List.toFinset_card_of_nodup hnd]
          apply Finset.card_le_card
          intro x hx
          rw [List.mem_toFinset] at hx
          have h1 := (henqmem x).mp hx
          refine Finset.mem_filter.mpr ⟨hadj current h1.1, (hmemns x).mpr h1.1, by omega⟩
        have hq2len : queue2.length = rest.length + enq.length := by
          rw [hqueue2, List.length_append]
        have hqlen : (current :: rest).length = rest.length + 1 := by simp
        rw [hqlen] at hFuel
        omega
      obtain ⟨cA, cB, cB2, cC, cD, cE⟩ :=
        ih queue2 (P ++ [current]) indeg2 hPk2 hQk2 hPnd2 hQnd2 hDisj2 hI22 hI42 hFuel2
      rw [hloop]
      have hassoc : ∀ l : List String, (P ++ [current]) ++ l = P ++ current :: l := by
        intro l
        rw [List.append_assoc, List.singleton_append]
      refine ⟨?_, ?_, ?_, ?_, ?_, ?_⟩
      · rw [← hassoc]
        exact cA
      · intro x hx
        rcases List.mem_cons.mp hx with hx | hx
        · exact hx ▸ hckey
        · exact cB x hx
      · intro x hx
        rcases List.mem_cons.mp hx with hx | hx
        · exact hx ▸ List.mem_cons_self _ _
        · exact List.mem_cons_of_mem _
            (cB2 x (List.mem_append.mpr (Or.inl hx)))
      · intro o1 a o2 hdecomp b hb hbadj
        cases o1 with
        | nil =>
          simp only [List.nil_append, List.cons.injEq] at hdecomp
          obtain ⟨ha, _⟩ := hdecomp
          subst ha
          exact List.mem_append_left _ (preds_in_P b hb hbadj)
        | cons c o1' =>
          simp only [List.cons_append, List.cons.injEq] at hdecomp
          obtain ⟨hc, htail⟩ := hdecomp
          subst hc
          have := cC o1' a o2 htail b hb hbadj
          rw [hassoc] at this
          simpa using this
      · intro a
        have := cD a
        rw [hassoc] at this
        exact this
      · intro a ha
        have := cE a ha
        rw [hassoc] at this
        exact this

/-- The dequeued sequence of `_derive_creation_order`, from the seeded
initial state: it is duplicate-free, stays within the key set, pops each
node only after all its predecessors, and leaves the final in-degree
dictionary counting unpopped predecessors, with a node popped exactly
when its final in-degree is nonpositive. -/
theorem kahnOut_base (graph : List (String × Finset String)) (tables : List AirtableTable)
    (hadj : ∀ b : String, kahnAdj graph b ⊆ kahnKeys graph tables)
    (hindeg0 : ∀ a ∈ kahnKeys graph tables,
      kahnIndeg0 graph a =
        (((kahnKeys graph tables).filter (fun b => a ∈ kahnAdj graph b)).card : Int)) :
    (kahnOut graph tables).Nodup ∧
    (∀ x ∈ kahnOut graph tables, x ∈ kahnKeys graph tables) ∧
    (∀ o1 a o2, kahnOut graph tables = o1 ++ a :: o2 →
      ∀ b ∈ kahnKeys graph tables, a ∈ kahnAdj graph b → b ∈ o1) ∧
    (∀ a, kahnFinal graph tables a =
      kahnIndeg0 graph a -
        (((kahnOut graph tables).filter (fun b => a ∈ kahnAdj graph b)).length : Int)) ∧
    (∀ a ∈ kahnKeys graph tables,
      (a ∈ kahnOut graph tables ↔ kahnFinal graph tables a ≤ 0)) := by
  have hQk : ∀ x ∈ kahnSeed graph tables, x ∈ kahnKeys graph tables := by
    intro x hx
    rw [kahnSeed, mem_sortedList] at hx
    exact (Finset.mem_filter.mp hx).1
  have hI4 : ∀ a ∈ kahnKeys graph tables,
      (a ∈ ([] : List String) ∨ a ∈ kahnSeed graph tables ↔ kahnIndeg0 graph a ≤ 0) := by
    intro a ha
    have hnn : (0 : Int) ≤ kahnIndeg0 graph a := by
      rw [hindeg0 a ha]
      exact_mod_cast Nat.zero_le _
    constructor
    · intro h
      rcases h with h | h
      · simp at h
      · rw [kahnSeed, mem_sortedList] at h
        have := (Finset.mem_filter.mp h).2
        omega
    · intro h
      refine Or.inr ?_
      rw [kahnSeed, mem_sortedList]
      exact Finset.mem_filter.mpr ⟨ha, by omega⟩
  obtain ⟨cA, cB, cB2, cC, cD, cE⟩ :=
    kahnLoop_spec (kahnAdj graph) (kahnKeys graph tables) (kahnIndeg0 graph) hadj hindeg0
      (kahnFuel graph tables) (kahnSeed graph tables) [] (kahnIndeg0 graph)
      (by intro x hx; simp at hx) hQk List.nodup_nil (sortedList_nodup _)
      (by intro x _; simp)
      (by intro a; simp)
      hI4
      (le_of_eq rfl)
  refine ⟨by simpa using cA, cB, ?_, ?_, ?_⟩
  · intro o1 a o2 hdec b hb hbadj
    have := cC o1 a o2 hdec b hb hbadj
    simpa using this
  · intro a
    have := cD a
    simpa using this
  · intro a ha
    have := cE a ha
    simpa using this

/-- Pigeonhole: in a finite set where every element has a successor
inside the set, some element reaches itself. -/
theorem exists_transGen_self_of_succ (R : Finset String) (rel : String → String → Prop)
    (hne : R.Nonempty) (hsucc : ∀ r ∈ R, ∃ b ∈ R, rel r b) :
    ∃ x, Relation.TransGen rel x x := by
  classical
  let f : {x // x ∈ R} → {x // x ∈ R} := fun r =>
    ⟨(hsucc r.1 r.2).choose, (hsucc r.1 r.2).choose_spec.1⟩
  have hstep : ∀ r : {x // x ∈ R}, rel r.1 (f r).1 := fun r => (hsucc r.1 r.2).choose_spec.2
  have hchain : ∀ k : ℕ, 0 < k → ∀ y : {x // x ∈ R},
      Relation.TransGen rel y.1 (f^[k] y).1 := by
    intro k
    induction k with
    | zero => intro h; exact absurd h (by omega)
    | succ k ihk =>
      intro _ y
      rcases Nat.eq_zero_or_pos k with h0 | hpos
      · subst h0
        simpa using Relation.TransGen.single (hstep y)
      · have hk := ihk hpos y
        have hnext : rel (f^[k] y).1 (f^[k + 1] y).1 := by
          rw [Function.iterate_succ_apply']
          exact hstep _
        exact hk.tail hnext
  obtain ⟨x0, hx0⟩ := hne
  obtain ⟨m, n, hmn, heq⟩ :=
    Finite.exists_ne_map_eq_of_infinite (fun n : ℕ => f^[n] ⟨x0, hx0⟩)
  have key : ∀ m n : ℕ, m < n → f^[m] ⟨x0, hx0⟩ = f^[n] ⟨x0, hx0⟩ →
      ∃ x, Relation.TransGen rel x x := by
    intro m n hlt he
    have hiter : f^[n - m] (f^[m] ⟨x0, hx0⟩) = f^[n] ⟨x0, hx0⟩ := by
      rw [← Function.iterate_add_apply]
      congr 1
      omega
    refine ⟨(f^[m] ⟨x0, hx0⟩).1, ?_⟩
    have hc := hchain (n - m) (by omega) (f^[m] ⟨x0, hx0⟩)
    rw [hiter, ← he] at hc
    exact hc
  rcases Nat.lt_or_ge m n with h | h
  · exact key m n h heq
  · exact key n m (by omega) heq.symm

/-- When the dependency relation of the graph is acyclic, the loop pops
every key: the cycle detection of `_derive_creation_order` does not
fire. -/
theorem kahnOut_complete (graph : List (String × Finset String)) (tables : List AirtableTable)
    (hadj : ∀ b : String, kahnAdj graph b ⊆ kahnKeys graph tables)
    (hindeg0 : ∀ a ∈ kahnKeys graph tables,
      kahnIndeg0 graph a =
        (((kahnKeys graph tables).filter (fun b => a ∈ kahnAdj graph b)).card : Int))
    (hacyc : ∀ x, ¬ Relation.TransGen
      (fun u v => v ∈ kahnKeys graph tables ∧ u ∈ kahnAdj graph v) x x) :
    ∀ k ∈ kahnKeys graph tables, k ∈ kahnOut graph tables := by
  classical
  obtain ⟨hnd, hsub, _, hD, hE⟩ := kahnOut_base graph tables hadj hindeg0
  by_contra hmiss
  push_neg at hmiss
  obtain ⟨k0, hk0, hk0out⟩ := hmiss
  set R := (kahnKeys graph tables).filter (fun k => k ∉ kahnOut graph tables) with hR
  have hk0R : k0 ∈ R := Finset.mem_filter.mpr ⟨hk0, hk0out⟩
  have hsucc : ∀ r ∈ R,
      ∃ b ∈ R, (fun u v => v ∈ kahnKeys graph tables ∧ u ∈ kahnAdj graph v) r b := by
    intro r hr
    have hrkeys := (Finset.mem_filter.mp hr).1
    have hrout : r ∉ kahnOut graph tables := (Finset.mem_filter.mp hr).2
    have hfin : ¬ kahnFinal graph tables r ≤ 0 := fun h => hrout ((hE r hrkeys).mpr h)
    have hDr := hD r
    have hlt : (((kahnOut graph tables).filter (fun b => r ∈ kahnAdj graph b)).length : Int) <
        (((kahnKeys graph tables).filter (fun b => r ∈ kahnAdj graph b)).card : Int) := by
      have h0 := hindeg0 r hrkeys
      omega
    have hexists : ∃ b, b ∈ kahnKeys graph tables ∧ r ∈ kahnAdj graph b ∧
        b ∉ kahnOut graph tables := by
      by_contra hnone
      push_neg at hnone
      have hsubset : (kahnKeys graph tables).filter (fun b => r ∈ kahnAdj graph b) ⊆
          ((kahnOut graph tables).filter (fun b => r ∈ kahnAdj graph b)).toFinset := by
        intro b hb
        have hb1 := Finset.mem_filter.mp hb
        rw [List.mem_toFinset, List.mem_filter]
        exact ⟨hnone b hb1.1 hb1.2, decide_eq_true hb1.2⟩
      have hcard := Finset.card_le_card hsubset
      rw [List.toFinset_card_of_nodup (hnd.filter _)] at hcard
      omega
    obtain ⟨b, hbk, hbadj, hbout⟩ := hexists
    exact ⟨b, Finset.mem_filter.mpr ⟨hbk, hbout⟩, hbk, hbadj⟩
  obtain ⟨x, hx⟩ := exists_transGen_self_of_succ R _ ⟨k0, hk0R⟩ hsucc
  exact hacyc x hx

/-- In a duplicate-free list, an element of the prefix sits at a
strictly smaller index than the pivot. -/
theorem indexOf_lt_of_mem_front :
    ∀ (o1 : List String) (u : String) (o2 : List String) (v : String),
      v ∈ o1 → (o1 ++ u :: o2).Nodup →
      (o1 ++ u :: o2).indexOf v < (o1 ++ u :: o2).indexOf u := by
  intro o1
  induction o1 with
  | nil =>
    intro u o2 v hv _
    simp at hv
  | cons h t ih =>
    intro u o2 v hv hnd
    rw [List.cons_append] at hnd
    have hnotin : h ∉ t ++ u :: o2 := (List.nodup_cons.mp hnd).1
    have hnd' : (t ++ u :: o2).Nodup := (List.nodup_cons.mp hnd).2
    have huh : u ≠ h := by
      intro he
      exact hnotin (he ▸ List.mem_append_right _ (List.mem_cons_self _ _))
    by_cases hvh : v = h
    · subst hvh
      rw [List.cons_append, List.indexOf_cons_self, List.indexOf_cons_ne _ huh.symm]
      omega
    · have hvt : v ∈ t := by
        rcases List.mem_cons.mp hv with h' | h'
        · exact absurd h' hvh
        · exact h'
      rw [List.cons_append, List.indexOf_cons_ne _ (fun he => hvh he.symm),
        List.indexOf_cons_ne _ huh.symm]
      have := ih u o2 v hvt hnd'
      omega

/-- Along the transitive closure of the dependency relation, indices in
the popped sequence strictly decrease: a node is popped only after
everything it transitively depends on. -/
theorem kahnOut_topo (graph : List (String × Finset String)) (tables : List AirtableTable)
    (hadj : ∀ b : String, kahnAdj graph b ⊆ kahnKeys graph tables)
    (hindeg0 : ∀ a ∈ kahnKeys graph tables,
      kahnIndeg0 graph a =
        (((kahnKeys graph tables).filter (fun b => a ∈ kahnAdj graph b)).card : Int)) :
    ∀ u v, Relation.TransGen
        (fun u v => v ∈ kahnKeys graph tables ∧ u ∈ kahnAdj graph v) u v →
      u ∈ kahnOut graph tables →
      v ∈ kahnOut graph tables ∧
        (kahnOut graph tables).indexOf v < (kahnOut graph tables).indexOf u := by
  obtain ⟨hnd, _, hC, _, _⟩ := kahnOut_base graph tables hadj hindeg0
  have hstep : ∀ u v, v ∈ kahnKeys graph tables → u ∈ kahnAdj graph v →
      u ∈ kahnOut graph tables →
      v ∈ kahnOut graph tables ∧
        (kahnOut graph tables).indexOf v < (kahnOut graph tables).indexOf u := by
    intro u v hvk hu huout
    obtain ⟨o1, o2, hdec⟩ := List.append_of_mem huout
    have hvpre : v ∈ o1 := hC o1 u o2 hdec v hvk hu
    constructor
    · rw [hdec]
      exact List.mem_append_left _ hvpre
    · rw [hdec]
      exact indexOf_lt_of_mem_front o1 u o2 v hvpre (hdec ▸ hnd)
  intro u v htrans
  induction htrans with
  | single h => exact fun hu => hstep u _ h.1 h.2 hu
  | tail _ hbc ihab =>
    intro hu
    have h1 := ihab hu
    have h2 := hstep _ _ hbc.1 hbc.2 h1.1
    exact ⟨h2.1, by omega⟩

/-- In the acyclic case the dequeued sequence covers the key dictionary
exactly: its length equals the dictionary size, so the fallback is not
taken. -/
theorem kahnOut_covers (graph : List (String × Finset String)) (tables : List AirtableTable)
    (hadj : ∀ b : String, kahnAdj graph b ⊆ kahnKeys graph tables)
    (hindeg0 : ∀ a ∈ kahnKeys graph tables,
      kahnIndeg0 graph a =
        (((kahnKeys graph tables).filter (fun b => a ∈ kahnAdj graph b)).card : Int))
    (hacyc : ∀ x, ¬ Relation.TransGen
      (fun u v => v ∈ kahnKeys graph tables ∧ u ∈ kahnAdj graph v) x x) :
    (kahnOut graph tables).length = (kahnKeys graph tables).card ∧
    (kahnOut graph tables).toFinset = kahnKeys graph tables := by
  obtain ⟨hnd, hsub, _, _, _⟩ := kahnOut_base graph tables hadj hindeg0
  have hcov := kahnOut_complete graph tables hadj hindeg0 hacyc
  have hset : (kahnOut graph tables).toFinset = kahnKeys graph tables := by
    apply Finset.Subset.antisymm
    · intro x hx
      rw [List.mem_toFinset] at hx
      exact hsub x hx
    · intro x hx
      rw [List.mem_toFinset]
      exact hcov x hx
  refine ⟨?_, hset⟩
  rw [← List.toFinset_card_of_nodup hnd, hset]

/-- In the cyclic case the dequeued sequence cannot cover the key
dictionary: the fallback branch of `_derive_creation_order` is taken. -/
theorem kahnOut_not_covers (graph : List (String × Finset String))
    (tables : List AirtableTable)
    (hadj : ∀ b : String, kahnAdj graph b ⊆ kahnKeys graph tables)
    (hindeg0 : ∀ a ∈ kahnKeys graph tables,
      kahnIndeg0 graph a =
        (((kahnKeys graph tables).filter (fun b => a ∈ kahnAdj graph b)).card : Int))
    (hcyc : ∃ x, Relation.TransGen
      (fun u v => v ∈ kahnKeys graph tables ∧ u ∈ kahnAdj graph v) x x) :
    (kahnOut graph tables).length ≠ (kahnKeys graph tables).card := by
  obtain ⟨hnd, hsub, _, _, _⟩ := kahnOut_base graph tables hadj hindeg0
  intro hlen
  obtain ⟨x, hx⟩ := hcyc
  have hmem : ∀ u v, Relation.TransGen
      (fun u v => v ∈ kahnKeys graph tables ∧ u ∈ kahnAdj graph v) u v →
      u ∈ kahnKeys graph tables := by
    intro u v h
    induction h with
    | single h' => exact hadj _ h'.2
    | tail _ _ ihab => exact ihab
  have hxkeys : x ∈ kahnKeys graph tables := hmem x x hx
  have hset : (kahnOut graph tables).toFinset = kahnKeys graph tables := by
    apply Finset.eq_of_subset_of_card_le
    · intro y hy
      rw [List.mem_toFinset] at hy
      exact hsub y hy
    · rw [List.toFinset_card_of_nodup hnd, hlen]
  have hxout : x ∈ kahnOut graph tables := by
    rw [← List.mem_toFinset, hset]
    exact hxkeys
  have := (kahnOut_topo graph tables hadj hindeg0 x x hx hxout).2
  omega

/-! ### Instantiating the loop facts at the constructed graph -/

theorem mem_kahnKeys (graph : List (String × Finset String)) (tables : List AirtableTable)
    (x : String) :
    x ∈ kahnKeys graph tables ↔
      (x ∈ tables.map (fun t => t.id) ∨
        ∃ p ∈ graph, x ∈ p.2 ∨ (p.2.Nonempty ∧ x = p.1)) := by
  have aux : ∀ g : List (String × Finset String),
      (x ∈ g.foldr (fun p acc => (p.2 ∪ (if p.2.Nonempty then {p.1} else ∅)) ∪ acc) ∅ ↔
        ∃ p ∈ g, x ∈ p.2 ∨ (p.2.Nonempty ∧ x = p.1)) := by
    intro g
    induction g with
    | nil => simp
    | cons p ps ih =>
      simp only [List.foldr_cons, Finset.mem_union, ih]
      constructor
      · rintro ((h | h) | h)
        · exact ⟨p, List.mem_cons_self _ _, Or.inl h⟩
        · by_cases hne : p.2.Nonempty
          · rw [if_pos hne, Finset.mem_singleton] at h
            exact ⟨p, List.mem_cons_self _ _, Or.inr ⟨hne, h⟩⟩
          · rw [if_neg hne] at h
            exact absurd h (Finset.not_mem_empty x)
        · obtain ⟨q, hq, hcase⟩ := h
          exact ⟨q, List.mem_cons_of_mem _ hq, hcase⟩
      · rintro ⟨q, hq, hcase⟩
        rcases List.mem_cons.mp hq with hq | hq
        · subst hq
          rcases hcase with h | h
          · exact Or.inl (Or.inl h)
          · refine Or.inl (Or.inr ?_)
            rw [if_pos h.1, Finset.mem_singleton]
            exact h.2
        · exact Or.inr ⟨q, hq, hcase⟩
  rw [kahnKeys, Finset.mem_union, List.mem_toFinset, aux]

theorem mem_kahnAdj (graph : List (String × Finset String)) (d a : String) :
    a ∈ kahnAdj graph d ↔ ∃ p ∈ graph, d ∈ p.2 ∧ p.1 = a := by
  rw [kahnAdj, List.mem_toFinset, List.mem_map]
  constructor
  · rintro ⟨p, hp, hpa⟩
    rw [List.mem_filter] at hp
    exact ⟨p, hp.1, of_decide_eq_true hp.2, hpa⟩
  · rintro ⟨p, hp, hd, hpa⟩
    exact ⟨p, List.mem_filter.mpr ⟨hp, decide_eq_true hd⟩, hpa⟩

theorem kahnAdj_subset_keys (graph : List (String × Finset String))
    (tables : List AirtableTable) :
    ∀ b : String, kahnAdj graph b ⊆ kahnKeys graph tables := by
  intro b a ha
  obtain ⟨p, hp, hd, hpa⟩ := (mem_kahnAdj graph b a).mp ha
  exact (mem_kahnKeys graph tables a).mpr
    (Or.inr ⟨p, hp, Or.inr ⟨⟨b, hd⟩, hpa.symm⟩⟩)

/-- With distinct graph keys (a Python dictionary), two entries with the
same key coincide. -/
theorem graph_key_inj (graph : List (String × Finset String))
    (hG : (graph.map (fun p => p.1)).Nodup) :
    ∀ p ∈ graph, ∀ q ∈ graph, p.1 = q.1 → p = q := fun p hp q hq h =>
  List.inj_on_of_nodup_map hG hp hq h

theorem kahnIndeg0_eq_card (graph : List (String × Finset String))
    (hG : (graph.map (fun p => p.1)).Nodup) :
    ∀ p ∈ graph, kahnIndeg0 graph p.1 = (p.2.card : Int) := by
  intro p hp
  induction graph with
  | nil => cases hp
  | cons q qs ih =>
    have hqnotin : q.1 ∉ qs.map (fun p => p.1) := by
      rw [List.map_cons, List.nodup_cons] at hG
      exact hG.1
    have hG' : (qs.map (fun p => p.1)).Nodup := by
      rw [List.map_cons, List.nodup_cons] at hG
      exact hG.2
    rcases List.mem_cons.mp hp with hp' | hp'
    · subst hp'
      have hfil : qs.filter (fun r => r.1 = p.1) = [] := by
        rw [List.filter_eq_nil_iff]
        intro r hr hdec
        exact hqnotin
          ((of_decide_eq_true hdec) ▸ List.mem_map.mpr ⟨r, hr, rfl⟩)
      rw [kahnIndeg0]
      have hone : (p :: qs).filter (fun r => r.1 = p.1) = [p] := by
        rw [List.filter_cons]
        simp [hfil]
      rw [hone]
      simp
    · have hne : q.1 ≠ p.1 := by
        intro he
        exact hqnotin (he ▸ List.mem_map.mpr ⟨p, hp', rfl⟩)
      have : kahnIndeg0 (q :: qs) p.1 = kahnIndeg0 qs p.1 := by
        rw [kahnIndeg0, kahnIndeg0, List.filter_cons]
        simp [hne]
      rw [this]
      exact ih hG' hp'

theorem kahnIndeg0_eq_zero (graph : List (String × Finset String)) (k : String)
    (h : ∀ p ∈ graph, p.1 ≠ k) : kahnIndeg0 graph k = 0 := by
  rw [kahnIndeg0]
  have : graph.filter (fun p => p.1 = k) = [] := by
    rw [List.filter_eq_nil_iff]
    intro p hp hdec
    exact h p hp (of_decide_eq_true hdec)
  rw [this]
  rfl

/-- With distinct graph keys, each node's constructed in-degree counts
exactly its in-edges: the hypothesis of the Kahn loop invariant. -/
theorem kahnIndeg0_spec (graph : List (String × Finset String))
    (tables : List AirtableTable)
    (hG : (graph.map (fun p => p.1)).Nodup) :
    ∀ a ∈ kahnKeys graph tables,
      kahnIndeg0 graph a =
        (((kahnKeys graph tables).filter (fun b => a ∈ kahnAdj graph b)).card : Int) := by
  intro a _
  by_cases ha : ∃ p ∈ graph, p.1 = a
  · obtain ⟨p, hp, hpa⟩ := ha
    have h1 : kahnIndeg0 graph a = (p.2.card : Int) := hpa ▸ kahnIndeg0_eq_card graph hG p hp
    have h2 : (kahnKeys graph tables).filter (fun b => a ∈ kahnAdj graph b) = p.2 := by
      apply Finset.Subset.antisymm
      · intro b hb
        obtain ⟨hbk, hbadj⟩ := Finset.mem_filter.mp hb
        obtain ⟨q, hq, hd, hqa⟩ := (mem_kahnAdj graph b a).mp hbadj
        have : q = p := graph_key_inj graph hG q hq p hp (hqa.trans hpa.symm)
        exact this ▸ hd
      · intro b hb
        refine Finset.mem_filter.mpr ⟨?_, ?_⟩
        · exact (mem_kahnKeys graph tables b).mpr (Or.inr ⟨p, hp, Or.inl hb⟩)
        · exact (mem_kahnAdj graph b a).mpr ⟨p, hp, hb, hpa⟩
    rw [h1, h2]
  · push_neg at ha
    have h1 : kahnIndeg0 graph a = 0 := kahnIndeg0_eq_zero graph a ha
    have h2 : (kahnKeys graph tables).filter (fun b => a ∈ kahnAdj graph b) = ∅ := by
      rw [Finset.filter_eq_empty_iff]
      intro b _ hbadj
      obtain ⟨q, hq, _, hqa⟩ := (mem_kahnAdj graph b a).mp hbadj
      exact ha q hq hqa
    rw [h1, h2]
    rfl

/-! ### Bridging to `analyze_schema` -/

theorem dependencyGraphOf_keys (s : AirtableBaseSchema) :
    (dependencyGraphOf s).map (fun p => p.1) = s.tables.map (fun t => t.id) := by
  rw [dependencyGraphOf, List.map_map]
  rfl

theorem tableId_mem_keys (s : AirtableBaseSchema) (t : AirtableTable) (ht : t ∈ s.tables) :
    t.id ∈ kahnKeys (dependencyGraphOf s) s.tables :=
  (mem_kahnKeys _ _ t.id).mpr (Or.inl (List.mem_map.mpr ⟨t, ht, rfl⟩))

theorem dep_mem_keys (s : AirtableBaseSchema) (t : AirtableTable) (ht : t ∈ s.tables)
    (b : String) (hb : b ∈ tableDeps s t) :
    b ∈ kahnKeys (dependencyGraphOf s) s.tables :=
  (mem_kahnKeys _ _ b).mpr
    (Or.inr ⟨(t.id, tableDeps s t), List.mem_map.mpr ⟨t, ht, rfl⟩, Or.inl hb⟩)

/-- When every dependency resolves to a table of the base, the in-degree
dictionary's key set is exactly the set of table ids. -/
theorem kahnKeys_eq_tableIds (s : AirtableBaseSchema)
    (hResolve : ∀ t ∈ s.tables, tableDeps s t ⊆ (s.tables.map (fun t => t.id)).toFinset) :
    kahnKeys (dependencyGraphOf s) s.tables = (s.tables.map (fun t => t.id)).toFinset := by
  apply Finset.Subset.antisymm
  · intro x hx
    rcases (mem_kahnKeys _ _ x).mp hx with h | ⟨p, hp, hcase⟩
    · exact List.mem_toFinset.mpr h
    · obtain ⟨t, ht, hpt⟩ := List.mem_map.mp hp
      rcases hcase with h | h
      · have hp2 : p.2 = tableDeps s t := by rw [← hpt]
        exact hResolve t ht (hp2 ▸ h)
      · have hp1 : p.1 = t.id := by rw [← hpt]
        exact List.mem_toFinset.mpr (List.mem_map.mpr ⟨t, ht, (h.2.trans hp1).symm⟩)
  · intro x hx
    exact (mem_kahnKeys _ _ x).mpr (Or.inl (List.mem_toFinset.mp hx))

/-- The edge relation the loop sees coincides with the dependency
relation of the schema. -/
theorem rel_iff_depRel (s : AirtableBaseSchema) (a b : String) :
    (b ∈ kahnKeys (dependencyGraphOf s) s.tables ∧ a ∈ kahnAdj (dependencyGraphOf s) b) ↔
      depRel s a b := by
  constructor
  · rintro ⟨_, hadj⟩
    obtain ⟨p, hp, hd, hpa⟩ := (mem_kahnAdj _ b a).mp hadj
    obtain ⟨t, ht, hpt⟩ := List.mem_map.mp hp
    refine ⟨t, ht, ?_, ?_⟩
    · rw [← hpa, ← hpt]
    · have : p.2 = tableDeps s t := by rw [← hpt]
      exact this ▸ hd
  · rintro ⟨t, ht, hta, htb⟩
    refine ⟨dep_mem_keys s t ht b htb, ?_⟩
    exact (mem_kahnAdj _ b a).mpr ⟨(t.id, tableDeps s t), List.mem_map.mpr ⟨t, ht, rfl⟩, htb, hta⟩

/-- With distinct table ids, `table_lookup.get(table.id, table.id)`
resolves to the table's name. -/
theorem lookupDefault_eq_name (s : AirtableBaseSchema)
    (hIds : (s.tables.map (fun t => t.id)).Nodup) (t : AirtableTable) (ht : t ∈ s.tables) :
    lookupDefault (tableLookupOf s) t.id = t.name := by
  have hfind : ∀ (tables : List AirtableTable), (tables.map (fun u => u.id)).Nodup →
      t ∈ tables →
      (tables.map (fun u => (u.id, u.name))).find? (fun kv => kv.1 == t.id) =
        some (t.id, t.name) := by
    intro tables
    induction tables with
    | nil => intro _ h; cases h
    | cons u us ih =>
      intro hnd hmem
      have hnotin : u.id ∉ us.map (fun v => v.id) := by
        rw [List.map_cons, List.nodup_cons] at hnd
        exact hnd.1
      have hnd' : (us.map (fun v => v.id)).Nodup := by
        rw [List.map_cons, List.nodup_cons] at hnd
        exact hnd.2
      rcases List.mem_cons.mp hmem with h | h
      · subst h
        rw [List.map_cons, List.find?_cons_of_pos]
        simp
      · have hne : u.id ≠ t.id := by
          intro he
          exact hnotin (he ▸ List.mem_map.mpr ⟨t, h, rfl⟩)
        rw [List.map_cons, List.find?_cons_of_neg, ih hnd' h]
        simp [hne]
  rw [lookupDefault, lookupGet, tableLookupOf, hfind s.tables hIds ht]
  rfl

/-- With distinct table ids, two tables of the base with the same id are
the same table. -/
theorem table_eq_of_id_eq (s : AirtableBaseSchema)
    (hIds : (s.tables.map (fun t => t.id)).Nodup) :
    ∀ t ∈ s.tables, ∀ u ∈ s.tables, t.id = u.id → t = u := fun t ht u hu h =>
  List.inj_on_of_nodup_map hIds ht hu h

/-- Every relationship edge of the analysis targets a recorded
dependency of its source table. -/
theorem relationship_edge_dep (s : AirtableBaseSchema) (e : RelationshipSummary)
    (he : e ∈ (analyzeSchema s).relationships) :
    ∃ t ∈ s.tables, e.fromTableId = t.id ∧ e.toTableId ∈ tableDeps s t := by
  simp only [analyzeSchema] at he
  rw [List.mem_flatMap] at he
  obtain ⟨t, ht, he⟩ := he
  obtain ⟨f, _, _, _, _, h4, _, _, _, _, h9⟩ :=
    processFieldsAux_rels t (tableLookupOf s) t.fields e he
  exact ⟨t, ht, h4, h9⟩

/-- The acyclicity hypothesis transfers from the schema's dependency
relation to the edge relation the loop sees. -/
theorem acyc_transfer (s : AirtableBaseSchema)
    (hacyc : ∀ x, ¬ Relation.TransGen (depRel s) x x) :
    ∀ x, ¬ Relation.TransGen
      (fun u v => v ∈ kahnKeys (dependencyGraphOf s) s.tables ∧
        u ∈ kahnAdj (dependencyGraphOf s) v) x x := by
  intro x hx
  exact hacyc x (hx.mono (fun u v h => (rel_iff_depRel s u v).mp h))

/-- In the acyclic case the creation order is the loop's dequeued
sequence with table ids resolved to names. -/
theorem creationOrder_acyclic (s : AirtableBaseSchema)
    (hIds : (s.tables.map (fun t => t.id)).Nodup)
    (hacyc : ∀ x, ¬ Relation.TransGen (depRel s) x x) :
    creationOrder s =
      (kahnOut (dependencyGraphOf s) s.tables).map
        (fun i => lookupDefault (tableLookupOf s) i) := by
  have hG : ((dependencyGraphOf s).map (fun p => p.1)).Nodup := by
    rw [dependencyGraphOf_keys]
    exact hIds
  have hcov := kahnOut_covers (dependencyGraphOf s) s.tables
    (kahnAdj_subset_keys (dependencyGraphOf s) s.tables)
    (kahnIndeg0_spec (dependencyGraphOf s) s.tables hG)
    (acyc_transfer s hacyc)
  show deriveCreationOrder (dependencyGraphOf s) (tableLookupOf s) s.tables = _
  rw [deriveCreationOrder, if_pos hcov.1]

/-! ### C1: the creation order is a topological order -/

/-- C1: for every base with distinct table ids whose dependency graph is
acyclic, and every relationship edge from table `a` to table `b`, the
name of `b` appears strictly before the name of `a` in the suggested
creation order. -/
theorem creation_order_topological (s : AirtableBaseSchema)
    (hIds : (s.tables.map (fun t => t.id)).Nodup)
    (hacyc : ∀ x, ¬ Relation.TransGen (depRel s) x x)
    (e : RelationshipSummary) (a b : AirtableTable)
    (he : e ∈ (analyzeSchema s).relationships)
    (ha : a ∈ s.tables) (hb : b ∈ s.tables)
    (hA : e.fromTableId = a.id) (hB : e.toTableId = b.id) :
    ∃ i j : Nat, i < j ∧ (creationOrder s)[i]? = some b.name ∧
      (creationOrder s)[j]? = some a.name := by
  have hG : ((dependencyGraphOf s).map (fun p => p.1)).Nodup := by
    rw [dependencyGraphOf_keys]
    exact hIds
  have hadj := kahnAdj_subset_keys (dependencyGraphOf s) s.tables
  have hindeg0 := kahnIndeg0_spec (dependencyGraphOf s) s.tables hG
  -- the edge is a recorded dependency of its source table
  obtain ⟨t, ht, hte, htd⟩ := relationship_edge_dep s e he
  have hta : t = a := table_eq_of_id_eq s hIds t ht a ha (hte.symm.trans hA)
  subst hta
  rw [hB] at htd
  have hrel2 : b.id ∈ kahnKeys (dependencyGraphOf s) s.tables ∧
      t.id ∈ kahnAdj (dependencyGraphOf s) b.id :=
    (rel_iff_depRel s t.id b.id).mpr ⟨t, ht, rfl, htd⟩
  -- both endpoints are popped
  have hcov := kahnOut_covers (dependencyGraphOf s) s.tables hadj hindeg0
    (acyc_transfer s hacyc)
  have haout : t.id ∈ kahnOut (dependencyGraphOf s) s.tables := by
    rw [← List.mem_toFinset, hcov.2]
    exact tableId_mem_keys s t ht
  obtain ⟨o1, o2, hdec⟩ := List.append_of_mem haout
  -- soundness: b precedes a
  obtain ⟨_, _, hC, _, _⟩ := kahnOut_base (dependencyGraphOf s) s.tables hadj hindeg0
  have hbpre : b.id ∈ o1 := hC o1 t.id o2 hdec b.id hrel2.1 hrel2.2
  obtain ⟨n, hn⟩ := List.mem_iff_get.mp hbpre
  refine ⟨n.1, o1.length, n.2, ?_, ?_⟩
  · rw [creationOrder_acyclic s hIds hacyc, hdec, List.getElem?_map,
      List.getElem?_append_left n.2, List.getElem?_eq_getElem n.2]
    have : o1[n.1] = b.id := by
      rw [← List.get_eq_getElem]
      exact hn
    rw [this]
    simp [lookupDefault_eq_name s hIds b hb]
  · rw [creationOrder_acyclic s hIds hacyc, hdec, List.getElem?_map, List.getElem?_append]
    rw [if_neg (lt_irrefl o1.length), Nat.sub_self]
    simp [lookupDefault_eq_name s hIds t ht]

/-- A relation contained in the single pair `(u, v)` with `u ≠ v` has an
irreflexive transitive closure. -/
theorem transGen_irrefl_of_pair (rel : String → String → Prop) (u v : String)
    (hsub : ∀ a b, rel a b → a = u ∧ b = v) (hne : u ≠ v) :
    ∀ x, ¬ Relation.TransGen rel x x := by
  have hstep : ∀ a b, Relation.TransGen rel a b → a = u ∧ b = v := by
    intro a b h
    induction h with
    | single h' => exact hsub _ _ h'
    | tail _ hbc ihab =>
      have h2 := hsub _ _ hbc
      exact absurd (ihab.2.symm.trans h2.1).symm hne
  intro x hx
  have h := hstep x x hx
  exact hne (h.1.symm.trans h.2)

/-- The dependency relation of the Projects/Tasks base holds only of
the pair (Tasks, Projects). -/
theorem depRel_exLink : ∀ a b, depRel exLink a b → a = "tblTasks" ∧ b = "tblProjects" := by
  rintro a b ⟨t, ht, hta, htb⟩
  rcases List.mem_cons.mp ht with h | h
  · subst h
    have he : tableDeps exLink exProjects = ∅ := by decide
    rw [he] at htb
    exact absurd htb (Finset.not_mem_empty b)
  · rcases List.mem_cons.mp h with h2 | h2
    · subst h2
      have he : tableDeps exLink exTasks = {"tblProjects"} := by decide
      rw [he, Finset.mem_singleton] at htb
      refine ⟨?_, htb⟩
      rw [← hta]
      rfl
    · exact absurd h2 (List.not_mem_nil t)

/-- C1 witness: on the Projects/Tasks base, "Projects" precedes "Tasks"
in the creation order. -/
theorem creation_order_topological_witness :
    ∃ i j : Nat, i < j ∧ (creationOrder exLink)[i]? = some exProjects.name ∧
      (creationOrder exLink)[j]? = some exTasks.name :=
  creation_order_topological exLink (by decide)
    (transGen_irrefl_of_pair (depRel exLink) "tblTasks" "tblProjects" depRel_exLink
      (by decide))
    ((analyzeSchema exLink).relationships.get ⟨0, by decide⟩) exTasks exProjects
    (List.get_mem _ _ _)
    (List.Mem.tail _ (List.Mem.head _)) (List.Mem.head _)
    (by decide) (by decide)

/-! ### C2: the creation order is total, with alphabetical fallback -/

/-- C2: with distinct table ids and resolvable dependencies, the
creation order is a permutation of all table names (total, and empty
only for an empty base), and on a cyclic dependency graph it is exactly
the alphabetically sorted list of table names. -/
theorem creation_order_total_with_fallback (s : AirtableBaseSchema)
    (hIds : (s.tables.map (fun t => t.id)).Nodup)
    (hResolve : ∀ t ∈ s.tables, tableDeps s t ⊆ (s.tables.map (fun t => t.id)).toFinset) :
    (creationOrder s).Perm (s.tables.map (fun t => t.name)) ∧
    ((∃ x, Relation.TransGen (depRel s) x x) →
      creationOrder s = List.insertionSort strLE (s.tables.map (fun t => t.name))) := by
  have hG : ((dependencyGraphOf s).map (fun p => p.1)).Nodup := by
    rw [dependencyGraphOf_keys]
    exact hIds
  have hadj := kahnAdj_subset_keys (dependencyGraphOf s) s.tables
  have hindeg0 := kahnIndeg0_spec (dependencyGraphOf s) s.tables hG
  have hfallbackSorted :
      (List.insertionSort (fun a b => strLE a.name b.name) s.tables).map
          (fun t => lookupDefault (tableLookupOf s) t.id) =
        List.insertionSort strLE (s.tables.map (fun t => t.name)) := by
    have hmapname :
        (List.insertionSort (fun a b => strLE a.name b.name) s.tables).map
            (fun t => lookupDefault (tableLookupOf s) t.id) =
          (List.insertionSort (fun a b => strLE a.name b.name) s.tables).map
            (fun t => t.name) := by
      apply List.map_congr_left
      intro t htmem
      exact lookupDefault_eq_name s hIds t ((List.mem_insertionSort _).mp htmem)
    rw [hmapname]
    exact @List.eq_of_perm_of_sorted String strLE _ _ _
      (((List.perm_insertionSort _ s.tables).map _).trans
        (List.perm_insertionSort strLE _).symm)
      ((List.pairwise_map).mpr (List.sorted_insertionSort _ _))
      (List.sorted_insertionSort strLE _)
  have hfallback : (∃ x, Relation.TransGen (depRel s) x x) →
      creationOrder s = List.insertionSort strLE (s.tables.map (fun t => t.name)) := by
    intro hcyc
    have hcyc2 : ∃ x, Relation.TransGen
        (fun u v => v ∈ kahnKeys (dependencyGraphOf s) s.tables ∧
          u ∈ kahnAdj (dependencyGraphOf s) v) x x := by
      obtain ⟨x, hx⟩ := hcyc
      exact ⟨x, hx.mono (fun u v h => (rel_iff_depRel s u v).mpr h)⟩
    have hncov := kahnOut_not_covers (dependencyGraphOf s) s.tables hadj hindeg0 hcyc2
    show deriveCreationOrder (dependencyGraphOf s) (tableLookupOf s) s.tables = _
    rw [deriveCreationOrder, if_neg hncov, hfallbackSorted]
  refine ⟨?_, hfallback⟩
  by_cases hcyc : ∃ x, Relation.TransGen (depRel s) x x
  · rw [hfallback hcyc]
    exact List.perm_insertionSort strLE _
  · push_neg at hcyc
    have hacyc : ∀ x, ¬ Relation.TransGen (depRel s) x x := hcyc
    rw [creationOrder_acyclic s hIds hacyc]
    have hcov := kahnOut_covers (dependencyGraphOf s) s.tables hadj hindeg0
      (acyc_transfer s hacyc)
    obtain ⟨hnd, _, _, _, _⟩ := kahnOut_base (dependencyGraphOf s) s.tables hadj hindeg0
    have hperm : (kahnOut (dependencyGraphOf s) s.tables).Perm
        (s.tables.map (fun t => t.id)) := by
      rw [List.perm_ext_iff_of_nodup hnd hIds]
      intro x
      rw [← List.mem_toFinset, hcov.2, kahnKeys_eq_tableIds s hResolve, List.mem_toFinset]
    have hmapped := hperm.map (fun i => lookupDefault (tableLookupOf s) i)
    refine hmapped.trans ?_
    rw [List.map_map]
    have hnames : s.tables.map
        ((fun i => lookupDefault (tableLookupOf s) i) ∘ (fun t => t.id)) =
        s.tables.map (fun t => t.name) :=
      List.map_congr_left (fun t ht => lookupDefault_eq_name s hIds t ht)
    rw [hnames]

/-- C2 witness: the Projects/Tasks base. -/
theorem creation_order_total_with_fallback_witness :
    (creationOrder exLink).Perm (exLink.tables.map (fun t => t.name)) ∧
    ((∃ x, Relation.TransGen (depRel exLink) x x) →
      creationOrder exLink = List.insertionSort strLE (exLink.tables.map (fun t => t.name))) :=
  creation_order_total_with_fallback exLink (by decide) (by decide)

/-! ### C3: tie-breaking among simultaneously eligible tables -/

theorem sortedList_empty : sortedList (∅ : Finset String) = [] := rfl

/-- With no adjacency at all, the loop dequeues exactly its queue. -/
theorem kahnLoop_adj_empty (adj : String → Finset String)
    (hA : ∀ d, adj d = (∅ : Finset String)) :
    ∀ (fuel : Nat) (q : List String) (indeg : String → Int), q.length ≤ fuel →
      (kahnLoop adj fuel q indeg).1 = q := by
  intro fuel
  induction fuel with
  | zero =>
    intro q indeg h
    have hq : q = [] := List.length_eq_zero.mp (by omega)
    subst hq
    rfl
  | succ fuel ih =>
    intro q indeg h
    cases q with
    | nil => rw [kahnLoop_nil]
    | cons c rest =>
      rw [kahnLoop_cons]
      have hs : sortedList (adj c) = [] := by
        rw [hA c]
        exact sortedList_empty
      simp only [hs, decrementAll]
      rw [ih rest indeg (by simp at h; omega)]

theorem kahnIndeg0_all_empty (graph : List (String × Finset String))
    (h : ∀ p ∈ graph, p.2 = (∅ : Finset String)) :
    ∀ k, kahnIndeg0 graph k = 0 := by
  intro k
  rw [kahnIndeg0]
  apply List.sum_eq_zero
  intro x hx
  obtain ⟨p, hp, hpx⟩ := List.mem_map.mp hx
  rw [← hpx, h p (List.mem_filter.mp hp).1]
  rfl

/-- Sorting the `Finset` of a duplicate-free list agrees with sorting
the list. -/
theorem sortedList_toFinset_of_nodup (l : List String) (h : l.Nodup) :
    sortedList l.toFinset = List.insertionSort strLE l := by
  refine @List.eq_of_perm_of_sorted String strLE _ _ _ ?_ (sortedList_sorted _)
    (List.sorted_insertionSort strLE _)
  rw [List.perm_ext_iff_of_nodup (sortedList_nodup _)
    ((List.perm_insertionSort strLE l).nodup_iff.mpr h)]
  intro x
  rw [mem_sortedList, List.mem_toFinset, List.mem_insertionSort]

/-- C3 counterexample: two tables with no dependencies are both eligible
when the queue is seeded; they are dequeued in id order (`"ta" = Zed`
before `"tb" = Alpha`), not in alphabetical name order. -/
theorem creation_order_seed_not_name_sorted :
    creationOrder exSeed = ["Zed", "Alpha"] ∧
    ["Zed", "Alpha"] ≠ ["Alpha", "Zed"] := by
  constructor
  · decide
  · decide

/-- C3 (amended): simultaneously eligible tables are queued — and hence,
the queue being FIFO, dequeued relative to one another — in ascending
order of table id, not name.  Three parts: (i) the initial queue is the
id-sorted list of zero-in-degree nodes; (ii) at every iteration of the
`while queue` loop, the newly eligible neighbors of the dequeued node
(those whose in-degree reaches zero) are appended to the back of the
queue, and that batch is itself in ascending id order; (iii) in
particular, for a base with distinct table ids and no dependencies at
all — every table eligible at seed time — the creation order lists the
table names in ascending id order. -/
theorem creation_order_ties_by_id :
    (∀ (graph : List (String × Finset String)) (tables : List AirtableTable),
      List.Sorted strLE (kahnSeed graph tables)) ∧
    (∀ (adj : String → Finset String) (fuel : Nat) (current : String)
        (rest : List String) (indeg : String → Int),
      (kahnLoop adj (fuel + 1) (current :: rest) indeg).1 =
        current ::
          (kahnLoop adj fuel
            (rest ++ (sortedList (adj current)).filter (fun n => indeg n = 1))
            (fun x => if x ∈ sortedList (adj current) then indeg x - 1 else indeg x)).1 ∧
      List.Sorted strLE ((sortedList (adj current)).filter (fun n => indeg n = 1))) ∧
    (∀ s : AirtableBaseSchema,
      (s.tables.map (fun t => t.id)).Nodup →
      (∀ t ∈ s.tables, tableDeps s t = ∅) →
      creationOrder s =
        (List.insertionSort (fun a b => strLE a.id b.id) s.tables).map (fun t => t.name)) := by
  refine ⟨?_, ?_, ?_⟩
  · intro graph tables
    exact sortedList_sorted _
  · intro adj fuel current rest indeg
    constructor
    · rw [kahnLoop_cons, decrementAll_eq _ _ _ (sortedList_nodup _)]
    · exact (sortedList_sorted _).filter _
  intro s hIds hNoDeps
  have hEmpty : ∀ p ∈ dependencyGraphOf s, p.2 = (∅ : Finset String) := by
    intro p hp
    obtain ⟨t, ht, hpt⟩ := List.mem_map.mp hp
    rw [← hpt]
    exact hNoDeps t ht
  have hkeys : kahnKeys (dependencyGraphOf s) s.tables =
      (s.tables.map (fun t => t.id)).toFinset :=
    kahnKeys_eq_tableIds s (fun t ht => by
      rw [hNoDeps t ht]
      exact Finset.empty_subset _)
  have hind : ∀ k, kahnIndeg0 (dependencyGraphOf s) k = 0 :=
    kahnIndeg0_all_empty _ hEmpty
  have hadjE : ∀ d, kahnAdj (dependencyGraphOf s) d = (∅ : Finset String) := by
    intro d
    rw [Finset.eq_empty_iff_forall_not_mem]
    intro a ha
    obtain ⟨p, hp, hd, _⟩ := (mem_kahnAdj _ d a).mp ha
    rw [hEmpty p hp] at hd
    exact Finset.not_mem_empty d hd
  have hseed : kahnSeed (dependencyGraphOf s) s.tables =
      sortedList ((s.tables.map (fun t => t.id)).toFinset) := by
    rw [kahnSeed, hkeys]
    congr 1
    apply Finset.filter_true_of_mem
    intro k _
    exact hind k
  have hout : kahnOut (dependencyGraphOf s) s.tables =
      kahnSeed (dependencyGraphOf s) s.tables := by
    rw [kahnOut]
    exact kahnLoop_adj_empty _ hadjE _ _ _ (Nat.le_add_right _ _)
  have hlen : (kahnOut (dependencyGraphOf s) s.tables).length =
      (kahnKeys (dependencyGraphOf s) s.tables).card := by
    rw [hout, hseed, length_sortedList, hkeys]
  show deriveCreationOrder (dependencyGraphOf s) (tableLookupOf s) s.tables = _
  rw [deriveCreationOrder, if_pos hlen, hout, hseed, sortedList_toFinset_of_nodup _ hIds]
  have hid : (List.insertionSort (fun a b => strLE a.id b.id) s.tables).map
      (fun t => t.id) = List.insertionSort strLE (s.tables.map (fun t => t.id)) :=
    @List.eq_of_perm_of_sorted String strLE _ _ _
      (((List.perm_insertionSort _ s.tables).map _).trans
        (List.perm_insertionSort strLE _).symm)
      ((List.pairwise_map).mpr (List.sorted_insertionSort _ _))
      (List.sorted_insertionSort strLE _)
  rw [← hid, List.map_map]
  apply List.map_congr_left
  intro t htmem
  exact lookupDefault_eq_name s hIds t ((List.mem_insertionSort _).mp htmem)

/-- C3 witness: the two-table base with opposed id and name orders
satisfies the hypotheses of the no-edge corollary, and its creation
order is the id-sorted name list. -/
theorem creation_order_ties_by_id_witness :
    (exSeed.tables.map (fun t => t.id)).Nodup ∧
    (∀ t ∈ exSeed.tables, tableDeps exSeed t = ∅) ∧
    creationOrder exSeed =
      (List.insertionSort (fun a b => strLE a.id b.id) exSeed.tables).map
        (fun t => t.name) :=
  ⟨by decide, by decide, creation_order_ties_by_id.2.2 exSeed (by decide) (by decide)⟩

/-! ### C4: relationship kind is a function of the field type alone -/

/-- C4: every relationship edge emitted by `analyze_schema` gets its
kind from `_determine_relationship_type` applied to the originating
field's type only: link-type fields map to `linked_record`, `rollup` to
`rollup`, `lookup` to `lookup`, and every other type string to itself —
the configuration contents never enter. -/
theorem relationship_kind_is_function_of_field_type :
    (∀ (s : AirtableBaseSchema) (e : RelationshipSummary),
      e ∈ (analyzeSchema s).relationships →
      ∃ t ∈ s.tables, ∃ f ∈ t.fields, e.fromTableId = t.id ∧ e.fromFieldId = f.id ∧
        e.relationshipType = determineRelationshipType f.type) ∧
    determineRelationshipType "linkedRecord" = "linked_record" ∧
    determineRelationshipType "multipleRecordLinks" = "linked_record" ∧
    determineRelationshipType "rollup" = "rollup" ∧
    determineRelationshipType "lookup" = "lookup" ∧
    (∀ ty : String, ty ≠ "linkedRecord" → ty ≠ "multipleRecordLinks" → ty ≠ "rollup" →
      ty ≠ "lookup" → determineRelationshipType ty = ty) := by
  refine ⟨?_, rfl, rfl, rfl, rfl, ?_⟩
  · intro s e he
    simp only [analyzeSchema] at he
    rw [List.mem_flatMap] at he
    obtain ⟨t, ht, he⟩ := he
    obtain ⟨f, hf, _, _, _, h4, _, h6, _, h8, _⟩ :=
      processFieldsAux_rels t (tableLookupOf s) t.fields e he
    exact ⟨t, ht, f, hf, h4, h6, h8⟩
  · intro ty h1 h2 h3 h4
    simp [determineRelationshipType, h1, h2, h3, h4]

/-- C4 witness: the single edge of the Projects/Tasks base is traced
back to the Tasks link field. -/
theorem relationship_kind_is_function_of_field_type_witness :
    ((analyzeSchema exLink).relationships.get ⟨0, by decide⟩) ∈
      (analyzeSchema exLink).relationships ∧
    ∃ t ∈ exLink.tables, ∃ f ∈ t.fields,
      ((analyzeSchema exLink).relationships.get ⟨0, by decide⟩).fromTableId = t.id ∧
      ((analyzeSchema exLink).relationships.get ⟨0, by decide⟩).fromFieldId = f.id ∧
      ((analyzeSchema exLink).relationships.get ⟨0, by decide⟩).relationshipType =
        determineRelationshipType f.type :=
  ⟨List.get_mem _ _ _,
   relationship_kind_is_function_of_field_type.1 exLink _ (List.get_mem _ _ _)⟩

/-! ### C5: linked-table id extraction order -/

/-- C5 counterexample: on `{"linkedTableId": ""}` no candidate is a
non-empty string, yet `_extract_linked_table_id` returns the empty
string rather than `None` (the `isinstance(candidate, str)` test accepts
the empty string). -/
theorem extract_empty_string_counterexample :
    extractLinkedTableId [("linkedTableId", Value.vstr "")] = some "" ∧
    extractLinkedTableId [("linkedTableId", Value.vstr "")] ≠ none :=
  ⟨rfl, by decide⟩

/-- C5 (amended): `_extract_linked_table_id` probes the direct
linked-table key, the foreign-table key, the record-link-table key, then
the id nested in a rollup and then a lookup source descriptor, in that
fixed order, and returns the first candidate that is a string — the
empty string included; it returns `none` exactly when no candidate is a
string. -/
theorem extract_first_string_candidate (configuration : List (String × Value)) :
    extractLinkedTableId configuration = (linkCandidates configuration).findSome? id ∧
    (extractLinkedTableId configuration = none ↔
      ∀ c ∈ linkCandidates configuration, c = none) := by
  have hmain : extractLinkedTableId configuration =
      (linkCandidates configuration).findSome? id := by
    unfold extractLinkedTableId linkCandidates
    cases h1 : asStr (cfgGet configuration "linkedTableId") <;>
      cases h2 : asStr (cfgGet configuration "foreignTableId") <;>
        cases h3 : asStr (cfgGet configuration "recordLinkTableId") <;>
          cases h4 : (match cfgGet configuration "rollup" with
            | some (Value.vdict d) => asStr (cfgGet d "linkedTableId")
            | _ => none : Option String) <;>
            cases h5 : (match cfgGet configuration "lookup" with
              | some (Value.vdict d) => asStr (cfgGet d "linkedTableId")
              | _ => none : Option String) <;>
              simp [List.findSome?_cons, h1, h2, h3, h4, h5]
  refine ⟨hmain, ?_⟩
  rw [hmain, List.findSome?_eq_none_iff]
  simp

/-! ### C6: self-referential link fields are excluded -/

/-- C6: a field whose extracted linked-table id is the table's own id is
still summarized among the table's fields, while no emitted relationship
edge ever targets the table itself and the table's own id is never in
its dependency set. -/
theorem self_link_fields_excluded (table : AirtableTable)
    (tableLookup : List (String × String)) (field : AirtableField)
    (hf : field ∈ table.fields)
    (hself : extractLinkedTableId (normalizeConfiguration field.options) = some table.id) :
    mkFieldSummary table tableLookup field ∈ (processFields table tableLookup).1 ∧
    (∀ e ∈ (processFields table tableLookup).2.1, e.toTableId ≠ table.id) ∧
    table.id ∉ (processFields table tableLookup).2.2 := by
  refine ⟨?_, ?_, ?_⟩
  · rw [processFields, processFieldsAux_fst]
    exact List.mem_map_of_mem _ hf
  · intro e he
    obtain ⟨f, hf', _, _, h3, _⟩ := processFieldsAux_rels table tableLookup table.fields e he
    exact h3
  · intro hd
    obtain ⟨_, h2, _⟩ := processFieldsAux_deps table tableLookup table.fields table.id hd
    exact h2 rfl

/-- C6 witness: the self-referential `Parent` field of the `Nodes`
table. -/
theorem self_link_fields_excluded_witness :
    mkFieldSummary (exSelf.tables.get ⟨0, by decide⟩) (tableLookupOf exSelf)
        (linkFieldTo "fldParent" "Parent" "tblNodes") ∈
      (processFields (exSelf.tables.get ⟨0, by decide⟩) (tableLookupOf exSelf)).1 ∧
    (∀ e ∈ (processFields (exSelf.tables.get ⟨0, by decide⟩) (tableLookupOf exSelf)).2.1,
      e.toTableId ≠ (exSelf.tables.get ⟨0, by decide⟩).id) ∧
    (exSelf.tables.get ⟨0, by decide⟩).id ∉
      (processFields (exSelf.tables.get ⟨0, by decide⟩) (tableLookupOf exSelf)).2.2 :=
  self_link_fields_excluded _ _ _ (List.Mem.head _) rfl

/-! ### C7: complexity metrics -/

/-- One step of the counting loop of `_compute_metrics` adds the
per-type indicator of the field to each counter. -/
theorem metricStep_eq (acc : MetricCounts) (f : FieldSummary) :
    metricStep acc f =
      { formulaCount := acc.formulaCount + (if f.type = "formula" then 1 else 0),
        lookupCount := acc.lookupCount + (if f.type = "lookup" then 1 else 0),
        rollupCount := acc.rollupCount + (if f.type = "rollup" then 1 else 0),
        linkedCount :=
          acc.linkedCount + (if (f.type ∈ relationshipFieldTypes : Bool) then 1 else 0),
        singleSelectCount :=
          acc.singleSelectCount + (if f.type = "singleSelect" then 1 else 0) } := by
  unfold metricStep
  by_cases h1 : f.type = "formula"
  · simp +decide [h1]
  · by_cases h2 : f.type = "lookup"
    · simp +decide [h2]
    · by_cases h3 : f.type = "rollup"
      · simp +decide [h3]
      · by_cases h4 : f.type = "singleSelect"
        · simp +decide [h4]
        · simp [h1, h2, h3, h4]
          split <;> simp

/-- The counting loop over a field list computes the `countP` of each
per-type predicate. -/
theorem foldl_metricStep (fs : List FieldSummary) : ∀ acc : MetricCounts,
    fs.foldl metricStep acc =
      { formulaCount := acc.formulaCount + fs.countP (fun f => f.type == "formula"),
        lookupCount := acc.lookupCount + fs.countP (fun f => f.type == "lookup"),
        rollupCount := acc.rollupCount + fs.countP (fun f => f.type == "rollup"),
        linkedCount :=
          acc.linkedCount + fs.countP (fun f => (f.type ∈ relationshipFieldTypes : Bool)),
        singleSelectCount :=
          acc.singleSelectCount + fs.countP (fun f => f.type == "singleSelect") } := by
  induction fs with
  | nil => intro acc; simp
  | cons f fs ih =>
    intro acc
    rw [List.foldl_cons, ih, metricStep_eq]
    simp only [List.countP_cons, MetricCounts.mk.injEq, beq_iff_eq]
    refine ⟨?_, ?_, ?_, ?_, ?_⟩ <;> omega

/-- The full counting loop of `_compute_metrics` computes the `countP`
of each per-type predicate over all fields of all tables. -/
theorem metricCounts_eq (tables : List TableSummary) :
    metricCounts tables =
      { formulaCount :=
          (tables.flatMap (fun t => t.fields)).countP (fun f => f.type == "formula"),
        lookupCount :=
          (tables.flatMap (fun t => t.fields)).countP (fun f => f.type == "lookup"),
        rollupCount :=
          (tables.flatMap (fun t => t.fields)).countP (fun f => f.type == "rollup"),
        linkedCount :=
          (tables.flatMap (fun t => t.fields)).countP
            (fun f => (f.type ∈ relationshipFieldTypes : Bool)),
        singleSelectCount :=
          (tables.flatMap (fun t => t.fields)).countP (fun f => f.type == "singleSelect") } := by
  have key : ∀ acc : MetricCounts,
      tables.foldl (fun acc t => t.fields.foldl metricStep acc) acc =
        { formulaCount := acc.formulaCount +
            (tables.flatMap (fun t => t.fields)).countP (fun f => f.type == "formula"),
          lookupCount := acc.lookupCount +
            (tables.flatMap (fun t => t.fields)).countP (fun f => f.type == "lookup"),
          rollupCount := acc.rollupCount +
            (tables.flatMap (fun t => t.fields)).countP (fun f => f.type == "rollup"),
          linkedCount := acc.linkedCount +
            (tables.flatMap (fun t => t.fields)).countP
              (fun f => (f.type ∈ relationshipFieldTypes : Bool)),
          singleSelectCount := acc.singleSelectCount +
            (tables.flatMap (fun t => t.fields)).countP (fun f => f.type == "singleSelect") } := by
    induction tables with
    | nil => intro acc; simp
    | cons t ts ih =>
      intro acc
      rw [List.foldl_cons, ih, foldl_metricStep]
      simp only [List.flatMap_cons, List.countP_append, MetricCounts.mk.injEq]
      refine ⟨?_, ?_, ?_, ?_, ?_⟩ <;> omega
  unfold metricCounts
  rw [key]
  simp

/-- C7: `_compute_metrics` computes the complexity score as the weighted
sum tables×5 + fields×0.6 + relationships×4 + formulas×6 + lookups×4 +
rollups×4.5 + linked-fields×3, labels it Low/Moderate/High/Very High at
the fixed thresholds 60/120/180, and estimates the duplication time as
max(30, tables×20 + fields×1.2 + relationships×5 + formulas×8 +
lookups×6 + rollups×6) truncated to an integer. -/
theorem compute_metrics_formulas (a : SchemaAnalysis) :
    (computeMetrics a).complexityScore =
      (a.tables.length : ℚ) * 5 + ((fieldsOfAnalysis a).length : ℚ) * 0.6 +
        (a.relationships.length : ℚ) * 4 + (countFieldType a "formula" : ℚ) * 6 +
        (countFieldType a "lookup" : ℚ) * 4 + (countFieldType a "rollup" : ℚ) * 4.5 +
        (countLinkedFields a : ℚ) * 3 ∧
    (computeMetrics a).complexityLabel =
      (if (computeMetrics a).complexityScore < 60 then "Low"
       else if (computeMetrics a).complexityScore < 120 then "Moderate"
       else if (computeMetrics a).complexityScore < 180 then "High"
       else "Very High") ∧
    (computeMetrics a).estimatedTimeMinutes =
      max 30 (pyInt ((a.tables.length : ℚ) * 20 + ((fieldsOfAnalysis a).length : ℚ) * 1.2 +
        (a.relationships.length : ℚ) * 5 + (countFieldType a "formula" : ℚ) * 8 +
        (countFieldType a "lookup" : ℚ) * 6 + (countFieldType a "rollup" : ℚ) * 6)) := by
  have hfield : (a.tables.map (fun t => t.fields.length)).sum = (fieldsOfAnalysis a).length := by
    rw [fieldsOfAnalysis, List.length_flatMap]
    rfl
  refine ⟨?_, ?_, ?_⟩
  · simp only [computeMetrics, metricCounts_eq, hfield, countFieldType, countLinkedFields,
      fieldsOfAnalysis]
  · simp only [computeMetrics, classifyComplexity]
  · simp only [computeMetrics, metricCounts_eq, hfield, countFieldType, countLinkedFields,
      fieldsOfAnalysis]

/-! ### C8: field categorization is total and deterministic -/

/-- C8: `_categorize_field` always returns one of the eight fixed
categories, returns the same category on repeated application, and obeys
the precedence order — a primary field lands in `Core Fields` no matter
what else holds. -/
theorem categorize_field_total (f : FieldSummary) :
    categorizeField f ∈ fieldCategories ∧ categorizeField f = categorizeField f ∧
    (f.isPrimary = true → categorizeField f = "Core Fields") := by
  refine ⟨?_, rfl, ?_⟩
  · unfold categorizeField fieldCategories
    dsimp only
    split
    · simp
    split
    · simp
    split
    · simp
    split
    · simp
    split
    · simp
    split
    · simp
    split
    · simp
    · simp
  · intro h
    unfold categorizeField
    simp [h]

/-- C8 witness: a primary single-line-text field is categorized `Core
Fields`. -/
theorem categorize_field_total_witness :
    exPrimaryField.isPrimary = true ∧ categorizeField exPrimaryField = "Core Fields" :=
  ⟨rfl, (categorize_field_total exPrimaryField).2.2 rfl⟩

/-! ### C9: dependency display order -/

/-- C9 counterexample: the `Main` table of `exDeps` depends on `Zed`
(id `"tb"`) and `Alpha` (id `"tc"`); the rendered "Depends on" names
come out in id order `["Zed", "Alpha"]`, which is not alphabetical by
name. -/
theorem dependency_display_counterexample :
    dependencyNames (tableLookupOf exDeps) ((analyzeSchema exDeps).tables.get ⟨0, by decide⟩) =
      ["Zed", "Alpha"] ∧
    ¬ List.Sorted strLE ["Zed", "Alpha"] := by
  constructor
  · decide
  · decide

/-- C9 (amended): a table's serialized dependency list is sorted by the
depended-on table's id — the analysis stores the id-sorted list and the
renderer maps ids to names in that stored order (dropping unresolvable
empty names) without re-sorting by name. -/
theorem dependencies_displayed_in_id_order (s : AirtableBaseSchema) (ts : TableSummary)
    (hts : ts ∈ (analyzeSchema s).tables) :
    List.Sorted strLE ts.dependencies ∧
    dependencyNames (tableLookupOf s) ts =
      (ts.dependencies.map (fun dep => lookupDefault (tableLookupOf s) dep)).filter
        (fun name => name ≠ "") := by
  refine ⟨?_, rfl⟩
  simp only [analyzeSchema] at hts
  rw [List.mem_map] at hts
  obtain ⟨t, _, ht⟩ := hts
  rw [← ht]
  exact sortedList_sorted _

/-- C9 witness: the id-sorted dependency list of the `Main` table. -/
theorem dependencies_displayed_in_id_order_witness :
    List.Sorted strLE ((analyzeSchema exDeps).tables.get ⟨0, by decide⟩).dependencies ∧
    dependencyNames (tableLookupOf exDeps) ((analyzeSchema exDeps).tables.get ⟨0, by decide⟩) =
      ((((analyzeSchema exDeps).tables.get ⟨0, by decide⟩).dependencies.map
        (fun dep => lookupDefault (tableLookupOf exDeps) dep)).filter
          (fun name => name ≠ "")) :=
  dependencies_displayed_in_id_order exDeps _ (List.get_mem _ _ _)

/-! ### C10: the `build_report` exception boundary -/

/-- C10: whenever the rendering pipeline inside `build_report` fails
with any exception, `build_report` surfaces exactly one
`ReportGenerationError` whose cause is the original exception; no other
error shape ever escapes, and successful pipelines pass through. -/
theorem build_report_single_error_boundary (body : Except PyExc String) :
    (∀ exc : PyExc, body = Except.error exc →
      buildReport body =
        Except.error (ReportError.reportGenerationError "Failed to build markdown report." exc)) ∧
    (∀ e : PyExc, buildReport body ≠ Except.error (ReportError.propagated e)) ∧
    (∀ r : String, body = Except.ok r → buildReport body = Except.ok r) := by
  refine ⟨?_, ?_, ?_⟩ <;> cases body <;> simp [buildReport]

/-- C10 witness: a `ValueError` raised mid-pipeline is wrapped with its
cause preserved. -/
theorem build_report_single_error_boundary_witness :
    buildReport (Except.error ⟨"ValueError", "boom"⟩) =
      Except.error (ReportError.reportGenerationError "Failed to build markdown report."
        ⟨"ValueError", "boom"⟩) :=
  (build_report_single_error_boundary _).1 _ rfl

end Airtable
